/-
Verification of scripts/generate_emsdk_llvm_map.py.

Strings are modelled as `List Char` over the ASCII fragment; Python's `\d`
character class is modelled as the ASCII digits `0`-`9` and `\s` / `str.strip`
as the six ASCII whitespace characters.  Python's `re.match` with a pattern
ending in `$` succeeds also when a single trailing newline follows the matched
text; the embedding reproduces this.  Fallible Python code (raising
`ValueError` / `KeyError`) is embedded as `Option`-returning functions.
-/
import Mathlib

set_option maxHeartbeats 1000000

abbrev Str := List Char

/-- Python ASCII whitespace: the set matched by `\s` and stripped by `str.strip`. -/
def isPySpace (c : Char) : Bool :=
  c = ' ' || c = '\t' || c = '\n' || c = '\r' || c = '\x0b' || c = '\x0c'

/-- `str.strip()` restricted to the ASCII fragment. -/
def pyStrip (cs : Str) : Str :=
  ((cs.dropWhile isPySpace).reverse.dropWhile isPySpace).reverse

/-- Numeric value of an ASCII digit character. -/
def digitVal (c : Char) : Nat := c.toNat - 48

/-- Python `int(...)` on a string of ASCII digits. -/
def digitsToNat (cs : Str) : Nat := cs.foldl (fun a c => 10 * a + digitVal c) 0

/-- The ASCII digit character for a value `d < 10`. -/
def digitChar (d : Nat) : Char := Char.ofNat (48 + d)

/-- Decimal digits of `n`, most significant first; `fuel > n` suffices. -/
def natStrAux : Nat → Nat → Str
  | 0, _ => []
  | fuel + 1, n =>
    if n < 10 then [digitChar n]
    else natStrAux fuel (n / 10) ++ [digitChar (n % 10)]

/-- Python `str(...)` on a natural number (decimal, no sign, no leading zeros). -/
def natStr (n : Nat) : Str := natStrAux (n + 1) n

/-- Python `str(...)` on an integer. -/
def intStr (i : Int) : Str :=
  if i < 0 then '-' :: natStr i.natAbs else natStr i.natAbs

/-- `@dataclass(frozen=True, order=True) class SemVer` from the source:
an ordered (major, minor, patch) triple. -/
structure SemVer where
  major : Nat
  minor : Nat
  patch : Nat
deriving DecidableEq, Repr

/-- The dataclass `order=True` comparison: lexicographic on the field tuple. -/
def svLt (a b : SemVer) : Bool :=
  a.major < b.major ||
    (a.major = b.major && (a.minor < b.minor ||
      (a.minor = b.minor && a.patch < b.patch)))

/-- Non-strict tuple comparison on `SemVer`. -/
def svLe (a b : SemVer) : Bool := svLt a b || a = b

/-- Maximal (possibly empty) ASCII-digit prefix together with the rest:
the deterministic reading of a greedy `\d+` followed by a non-digit. -/
def takeDigits (cs : Str) : Str × Str :=
  (cs.takeWhile Char.isDigit, cs.dropWhile Char.isDigit)

/-- Greedy `(\d+)`: fails when no leading digit. Returns the digit group
verbatim and the remainder. -/
def matchDigits1 (cs : Str) : Option (Str × Str) :=
  let p := takeDigits cs
  if p.1 = [] then none else some p

/-- Matcher for `SEMVER_ONLY_RE = ^(\d+)\.(\d+)\.(\d+)$` under `re.match`:
the three digit groups must span the whole text, except that `$` also
matches just before a single trailing newline.  Returns the numeric groups. -/
def semverOnlyMatch (cs : Str) : Option (Nat × Nat × Nat) :=
  match matchDigits1 cs with
  | none => none
  | some (g1, r1) =>
    match r1 with
    | '.' :: r1' =>
      match matchDigits1 r1' with
      | none => none
      | some (g2, r2) =>
        match r2 with
        | '.' :: r2' =>
          match matchDigits1 r2' with
          | none => none
          | some (g3, r3) =>
            if r3 = [] || r3 = ['\n'] then
              some (digitsToNat g1, digitsToNat g2, digitsToNat g3)
            else none
        | _ => none
    | _ => none

/-- `SemVer.parse`: raises `ValueError` (here `none`) when `SEMVER_ONLY_RE`
does not match. -/
def SemVer.parse (cs : Str) : Option SemVer :=
  match semverOnlyMatch cs with
  | none => none
  | some (a, b, c) => some ⟨a, b, c⟩

/-- `SemVer.__str__`: `f"{major}.{minor}.{patch}"`. -/
def svToStr (v : SemVer) : Str :=
  natStr v.major ++ '.' :: natStr v.minor ++ '.' :: natStr v.patch

/-- `SemVer.short_branch`: `f"{major}.{minor}"`. -/
def shortBranchStr (v : SemVer) : Str :=
  natStr v.major ++ '.' :: natStr v.minor

/-- Spec-side shape (for the `FormatError` contract): the text is precisely
digits, dot, digits, dot, digits — nothing else. -/
def specExactSemver (cs : Str) : Prop :=
  ∃ a b c : Str, a ≠ [] ∧ b ≠ [] ∧ c ≠ [] ∧
    (∀ ch ∈ a, ch.isDigit) ∧ (∀ ch ∈ b, ch.isDigit) ∧ (∀ ch ∈ c, ch.isDigit) ∧
    cs = a ++ '.' :: b ++ '.' :: c

/-- Python `dict` lookup over an association list (at most one binding per key
is ever created by `alInsert`/`alPush`). -/
def alGet {κ α : Type} [DecidableEq κ] (m : List (κ × α)) (k : κ) : Option α :=
  match m with
  | [] => none
  | (k₁, v) :: rest => if k₁ = k then some v else alGet rest k

/-- Python `d[k] = v`: overwrite in place when the key exists (keeping its
position, as CPython does), otherwise append at the end. -/
def alInsert {κ α : Type} [DecidableEq κ] (m : List (κ × α)) (k : κ) (v : α) :
    List (κ × α) :=
  match m with
  | [] => [(k, v)]
  | (k₁, v₁) :: rest =>
    if k₁ = k then (k₁, v) :: rest else (k₁, v₁) :: alInsert rest k v

/-- Python `d.setdefault(k, []).append(x)`. -/
def alPush {κ α : Type} [DecidableEq κ] (m : List (κ × List α)) (k : κ) (x : α) :
    List (κ × List α) :=
  match m with
  | [] => [(k, [x])]
  | (k₁, l) :: rest =>
    if k₁ = k then (k₁, l ++ [x]) :: rest else (k₁, l) :: alPush rest k x

/-- Drop an exact literal from the front of a string, or fail. -/
def dropLit : Str → Str → Option Str
  | [], cs => some cs
  | _ :: _, [] => none
  | l :: ls, c :: cs => if c = l then dropLit ls cs else none

/-- Matcher for `REVISION_START_RE = ^\s*"(\d+\.\d+\.\d+)": struct\(\s*$`;
returns the verbatim version group. -/
def revisionStartMatch (cs : Str) : Option Str :=
  match cs.dropWhile isPySpace with
  | '"' :: rest =>
    match matchDigits1 rest with
    | some (d1, '.' :: r1) =>
      match matchDigits1 r1 with
      | some (d2, '.' :: r2) =>
        match matchDigits1 r2 with
        | some (d3, rest3) =>
          match dropLit ("\": struct(".toList) rest3 with
          | some tail => if tail.all isPySpace
              then some (d1 ++ '.' :: d2 ++ '.' :: d3) else none
          | none => none
        | none => none
      | _ => none
    | _ => none
  | _ => none

/-- Lowercase-hex character class `[0-9a-f]`. -/
def isHexLower (c : Char) : Bool := c.isDigit || ('a' ≤ c && c ≤ 'f')

/-- The recognized field-name alternatives of `REVISION_FIELD_RE`, in the
pattern's alternation order. -/
def fieldNames : List Str :=
  ["hash".toList, "sha_linux".toList, "sha_linux_arm64".toList,
   "sha_mac".toList, "sha_mac_arm64".toList, "sha_win".toList]

/-- The part of `REVISION_FIELD_RE` after the field name:
`\s*=\s*"([0-9a-f]+)",\s*$`; returns the hex group. -/
def fieldValueMatch (cs : Str) : Option Str :=
  match cs.dropWhile isPySpace with
  | '=' :: r =>
    match r.dropWhile isPySpace with
    | '"' :: r2 =>
      let hex := r2.takeWhile isHexLower
      match r2.dropWhile isHexLower with
      | '"' :: ',' :: r4 =>
        if hex ≠ [] && r4.all isPySpace then some hex else none
      | _ => none
    | _ => none
  | _ => none

/-- Try the alternation in order; the first name whose remainder also
matches wins (Python backtracking semantics). -/
def tryFieldNames : List Str → Str → Option (Str × Str)
  | [], _ => none
  | f :: fs, cs =>
    match dropLit f cs with
    | some rest =>
      match fieldValueMatch rest with
      | some hex => some (f, hex)
      | none => tryFieldNames fs cs
    | none => tryFieldNames fs cs

/-- Matcher for `REVISION_FIELD_RE`; returns (field name, hex checksum). -/
def revisionFieldMatch (cs : Str) : Option (Str × Str) :=
  tryFieldNames fieldNames (cs.dropWhile isPySpace)

/-- The mutable locals of `parse_revisions_bzl`'s loop. -/
structure RevState where
  out : List (Str × List (Str × Str))
  currentRelease : Option Str
  currentFields : List (Str × Str)
deriving Repr

/-- One iteration of the `for raw in revisions_text.splitlines()` loop. -/
def revStep (st : RevState) (raw : Str) : RevState :=
  match st.currentRelease with
  | none =>
    match revisionStartMatch raw with
    | some rel => ⟨st.out, some rel, []⟩
    | none => st
  | some rel =>
    match revisionFieldMatch raw with
    | some (f, hex) => ⟨st.out, some rel, alInsert st.currentFields f hex⟩
    | none =>
      if pyStrip raw = [')', ','] then ⟨alInsert st.out rel st.currentFields, none, []⟩
      else st

/-- `parse_revisions_bzl`, over the document's list of lines. -/
def parseRevisionsBzlLines (linesOf : List Str) : List (Str × List (Str × Str)) :=
  (linesOf.foldl revStep ⟨[], none, []⟩).out

/-- ASCII line-break characters recognized by Python `str.splitlines`. -/
def isLineBreak (c : Char) : Bool :=
  c = '\n' || c = '\r' || c = '\x0b' || c = '\x0c' ||
    c = '\x1c' || c = '\x1d' || c = '\x1e'

/-- Python `str.splitlines()` over the ASCII fragment (`\r\n` is one break). -/
def pySplitlines (cs : Str) : List Str :=
  match h : cs.dropWhile (fun c => !isLineBreak c) with
  | [] => if cs = [] then [] else [cs]
  | b :: rest =>
    let line := cs.takeWhile (fun c => !isLineBreak c)
    if b = '\r' && rest.head? = some '\n' then line :: pySplitlines rest.tail
    else line :: pySplitlines rest
termination_by cs.length
decreasing_by
  all_goals
    have h1 : (cs.dropWhile (fun c => !isLineBreak c)).length ≤ cs.length :=
      (List.dropWhile_sublist _).length_le
  all_goals rw [h] at h1
  all_goals simp only [List.length_cons] at h1
  · have h2 : rest.tail.length ≤ rest.length := by
      cases rest <;> simp
    omega
  · omega

/-- `is_section_underline`: the stripped line is nonempty and all dashes. -/
def isSectionUnderline (line : Str) : Bool :=
  let s := pyStrip line
  !s.isEmpty && s.all (fun ch => ch = '-')

/-- All characters are Python whitespace (`\s*$` on a newline-free line). -/
def allPySpace (cs : Str) : Bool := cs.all isPySpace

/-- The date suffix `\s*-\s*\d{2}/\d{2}/\d{2}` of `SECTION_HEADER_RE`;
returns the remainder after the date. -/
def matchDate (cs : Str) : Option Str :=
  match cs.dropWhile isPySpace with
  | '-' :: r =>
    match r.dropWhile isPySpace with
    | a :: b :: '/' :: c :: d :: '/' :: e :: f :: rest =>
      if a.isDigit && b.isDigit && c.isDigit && d.isDigit &&
          e.isDigit && f.isDigit then some rest else none
    | _ => none
  | _ => none

/-- `(?:\s*-\s*\d{2}/\d{2}/\d{2})?\s*$`: optional date then whitespace. -/
def dateThenEnd (cs : Str) : Bool :=
  allPySpace cs ||
    (match matchDate cs with
     | some rest => allPySpace rest
     | none => false)

/-- The existential over closing-paren positions encoding the backtracking of
`\(.*\)` (the dot does not match a newline) followed by the rest of the
pattern. -/
def anyCloseParen : Str → Bool
  | [] => false
  | c :: rest => (c = ')' && dateThenEnd rest) || (c ≠ '\n' && anyCloseParen rest)

/-- The optional parenthetical `\s*\(.*\)` branch of `SECTION_HEADER_RE`. -/
def parenBranch (cs : Str) : Bool :=
  match cs.dropWhile isPySpace with
  | '(' :: rest => anyCloseParen rest
  | _ => false

/-- The tail of `SECTION_HEADER_RE` after the three digit groups:
`(?:\s*\(.*\))?(?:\s*-\s*\d{2}/\d{2}/\d{2})?\s*$`. -/
def restAfterVersion (cs : Str) : Bool :=
  dateThenEnd cs || parenBranch cs

/-- `SECTION_HEADER_RE.match(line.strip())`: on success, the version key
`f"{g1}.{g2}.{g3}"` built from the verbatim digit groups. -/
def sectionHeaderMatch (line : Str) : Option Str :=
  match matchDigits1 (pyStrip line) with
  | some (g1, '.' :: r1) =>
    match matchDigits1 r1 with
    | some (g2, '.' :: r2) =>
      match matchDigits1 r2 with
      | some (g3, rest) =>
        if restAfterVersion rest then some (g1 ++ '.' :: g2 ++ '.' :: g3)
        else none
      | none => none
    | _ => none
  | _ => none

/-- The header-scanning `while i < len(lines) - 1` loop of
`parse_changelog_sections`: collects `(line index, version key)` pairs,
skipping the underline after each recorded header. -/
def scanHeaders (linesOf : List Str) (i : Nat) : List (Nat × Str) :=
  if h : i < linesOf.length - 1 then
    match sectionHeaderMatch (linesOf.getD i []) with
    | some key =>
      if isSectionUnderline (linesOf.getD (i + 1) []) then
        (i, key) :: scanHeaders linesOf (i + 2)
      else scanHeaders linesOf (i + 1)
    | none => scanHeaders linesOf (i + 1)
  else []
termination_by linesOf.length - i
decreasing_by all_goals omega

/-- Python `lines[a:b]` for nonnegative bounds. -/
def pySlice (linesOf : List Str) (a b : Nat) : List Str :=
  (linesOf.take b).drop a

/-- The section-assembly loop of `parse_changelog_sections`: each header's
body runs from two lines below the header to the next header (or document
end). -/
def addSections (linesOf : List Str) :
    List (Nat × Str) → List (Str × List Str) → List (Str × List Str)
  | [], acc => acc
  | (lineNo, semver) :: rest, acc =>
    let bodyEnd :=
      match rest with
      | (next, _) :: _ => next
      | [] => linesOf.length
    addSections linesOf rest (alInsert acc semver (pySlice linesOf (lineNo + 2) bodyEnd))

/-- `parse_changelog_sections`, over the document's list of lines. -/
def parseChangelogSectionsLines (linesOf : List Str) : List (Str × List Str) :=
  addSections linesOf (scanHeaders linesOf 0) []

/-- `parse_changelog_sections` on the raw document text. -/
def parseChangelogSections (text : Str) : List (Str × List Str) :=
  parseChangelogSectionsLines (pySplitlines text)

/-- One attempt of `LLVM_VERSION_RE = LLVM\s+(\d+)\.(\d+)\.(\d+)` anchored at
the current position; on success returns the version and the remainder after
the match. -/
def llvmTryMatch (cs : Str) : Option (SemVer × Str) :=
  match cs with
  | 'L' :: 'L' :: 'V' :: 'M' :: c :: rest1 =>
    if isPySpace c then
      match matchDigits1 (rest1.dropWhile isPySpace) with
      | some (d1, '.' :: r1) =>
        match matchDigits1 r1 with
        | some (d2, '.' :: r2) =>
          match matchDigits1 r2 with
          | some (d3, r3) =>
            some (⟨digitsToNat d1, digitsToNat d2, digitsToNat d3⟩, r3)
          | none => none
        | _ => none
      | _ => none
    else none
  | _ => none

/-- The `finditer` scan for `LLVM_VERSION_RE`: repeatedly find the leftmost
match and continue after it.  Each successful match consumes at least one
character, so `cs.length` steps of fuel always suffice. -/
def llvmScanAux : Nat → Str → List SemVer
  | 0, _ => []
  | _ + 1, [] => []
  | fuel + 1, c :: rest =>
    match llvmTryMatch (c :: rest) with
    | some (v, r) => v :: llvmScanAux fuel r
    | none => llvmScanAux fuel rest

/-- All matches of `LLVM_VERSION_RE` in one line, in order. -/
def llvmScan (cs : Str) : List SemVer := llvmScanAux cs.length cs

/-- Python `max` over a list: keeps the current maximum and replaces it only
on a strictly greater element (first maximum wins); raises on `[]`. -/
def pyMax (l : List SemVer) : Option SemVer :=
  match l with
  | [] => none
  | x :: rest => some (rest.foldl (fun m y => if svLt m y then y else m) x)

/-- `highest_llvm_version_in_section`: collect every `LLVM X.Y.Z` match over
all lines and return the maximum, or `None` when there is none. -/
def highestLlvmVersionInSection (sectionLines : List Str) : Option SemVer :=
  pyMax (sectionLines.foldl (fun acc line => acc ++ llvmScan line) [])

/-- The inference-mode strings of `infer_branch_versions`. -/
inductive Mode where
  | explicit
  | forwardFill
  | backwardFill
  | unknown
deriving DecidableEq, Repr

/-- The per-release result tuple `(llvm_version, anchor_release, mode)`. -/
structure Triple where
  version : Option SemVer
  anchor : Option Str
  mode : Mode
deriving DecidableEq, Repr

/-- The `by_branch` grouping loop of `infer_branch_versions`: parse every
release key (a failure raises, i.e. yields `none`) and append it to its
`short_branch()` bucket. -/
def buildByBranch :
    List (Str × Option SemVer) → List (Str × List SemVer) →
      Option (List (Str × List SemVer))
  | [], acc => some acc
  | (release, _) :: rest, acc =>
    match SemVer.parse release with
    | none => none
    | some sv => buildByBranch rest (alPush acc (shortBranchStr sv) sv)

/-- Sorting key `lambda x: x.patch` as a relation, for the stable
`sorted(versions, key=...)`. -/
def patchLe (a b : SemVer) : Prop := a.patch ≤ b.patch

instance : DecidableRel patchLe := fun a b => Nat.decLe a.patch b.patch

instance : IsTotal SemVer patchLe := ⟨fun a b => Nat.le_total a.patch b.patch⟩

instance : IsTrans SemVer patchLe := ⟨fun _ _ _ => Nat.le_trans⟩

/-- The mutable locals of the ascending walk in `infer_branch_versions`. -/
structure FwdState where
  currentVersion : Option SemVer
  currentAnchor : Option Str
  firstKnownIndex : Option Nat
  firstKnownVersion : Option SemVer
  firstKnownAnchor : Option Str
  assigned : List (Str × Triple)
deriving Repr

/-- One iteration of the `for idx, sv in enumerate(versions_sorted)` loop. -/
def fwdStep (sectionExplicit : List (Str × Option SemVer)) (st : FwdState)
    (idx : Nat) (sv : SemVer) : FwdState :=
  let key := svToStr sv
  match (alGet sectionExplicit key).bind id with
  | some explicitV =>
    { currentVersion := some explicitV
      currentAnchor := some key
      firstKnownIndex :=
        if st.firstKnownIndex = none then some idx else st.firstKnownIndex
      firstKnownVersion :=
        if st.firstKnownIndex = none then some explicitV else st.firstKnownVersion
      firstKnownAnchor :=
        if st.firstKnownIndex = none then some key else st.firstKnownAnchor
      assigned := alInsert st.assigned key ⟨some explicitV, some key, Mode.explicit⟩ }
  | none =>
    match st.currentVersion with
    | some cv =>
      { st with assigned :=
          alInsert st.assigned key ⟨some cv, st.currentAnchor, Mode.forwardFill⟩ }
    | none =>
      { st with assigned := alInsert st.assigned key ⟨none, none, Mode.unknown⟩ }

/-- The full ascending walk. -/
def fwdLoop (sectionExplicit : List (Str × Option SemVer)) :
    List SemVer → Nat → FwdState → FwdState
  | [], _, st => st
  | sv :: rest, idx, st =>
    fwdLoop sectionExplicit rest (idx + 1) (fwdStep sectionExplicit st idx sv)

/-- The backfill loop `for idx in range(first_known_index)`. -/
def backFill (versionsSorted : List SemVer) (k : Nat) (fkVersion : SemVer)
    (fkAnchor : Option Str) (assigned : List (Str × Triple)) :
    List (Str × Triple) :=
  (versionsSorted.take k).foldl
    (fun a sv =>
      alInsert a (svToStr sv) ⟨some fkVersion, fkAnchor, Mode.backwardFill⟩)
    assigned

/-- The final `out[key] = assigned[key]` copy; a missing key would raise
`KeyError` (yields `none`, never reached). -/
def collectOut : List SemVer → List (Str × Triple) → List (Str × Triple) →
    Option (List (Str × Triple))
  | [], _, out => some out
  | sv :: rest, assigned, out =>
    match alGet assigned (svToStr sv) with
    | none => none
    | some t => collectOut rest assigned (alInsert out (svToStr sv) t)

/-- The whole body of the `for branch, versions in by_branch.items()` loop
for one branch. -/
def processBranch (sectionExplicit : List (Str × Option SemVer))
    (versions : List SemVer) (out : List (Str × Triple)) :
    Option (List (Str × Triple)) :=
  let versionsSorted := List.insertionSort patchLe versions
  let st := fwdLoop sectionExplicit versionsSorted 0 ⟨none, none, none, none, none, []⟩
  let assigned :=
    match st.firstKnownIndex, st.firstKnownVersion with
    | some k, some fv => backFill versionsSorted k fv st.firstKnownAnchor st.assigned
    | _, _ => st.assigned
  collectOut versionsSorted assigned out

/-- Iterate `processBranch` over the branches in insertion order. -/
def branchesLoop (sectionExplicit : List (Str × Option SemVer)) :
    List (Str × List SemVer) → List (Str × Triple) →
      Option (List (Str × Triple))
  | [], out => some out
  | (_, versions) :: rest, out =>
    match processBranch sectionExplicit versions out with
    | none => none
    | some out2 => branchesLoop sectionExplicit rest out2

/-- `infer_branch_versions`. -/
def inferBranchVersions (sectionExplicit : List (Str × Option SemVer)) :
    Option (List (Str × Triple)) :=
  match buildByBranch sectionExplicit [] with
  | none => none
  | some byBranch => branchesLoop sectionExplicit byBranch []

/-- The grouping loop of `latest_release_per_llvm_major`: skip absent and
below-floor entries, parse the release key (failure raises) and push it into
its LLVM-major bucket. -/
def latestGroup :
    List (Str × Option SemVer) → Int → List (Nat × List SemVer) →
      Option (List (Nat × List SemVer))
  | [], _, acc => some acc
  | (release, llvmVer) :: rest, minMajor, acc =>
    match llvmVer with
    | none => latestGroup rest minMajor acc
    | some lv =>
      if (lv.major : Int) < minMajor then latestGroup rest minMajor acc
      else
        match SemVer.parse release with
        | none => none
        | some rsv => latestGroup rest minMajor (alPush acc lv.major rsv)

/-- The output loop of `latest_release_per_llvm_major`:
`out[str(major)] = str(max(emsdk_versions))` (a `max` over `[]` raises,
never reached since buckets are created nonempty). -/
def latestOut : List (Nat × List SemVer) → List (Str × Str) →
    Option (List (Str × Str))
  | [], out => some out
  | (major, vers) :: rest, out =>
    match pyMax vers with
    | none => none
    | some mx => latestOut rest (alInsert out (natStr major) (svToStr mx))

/-- `latest_release_per_llvm_major`. -/
def latestReleasePerLlvmMajor (releaseToLlvm : List (Str × Option SemVer))
    (minLlvmMajor : Int) : Option (List (Str × Str)) :=
  match latestGroup releaseToLlvm minLlvmMajor [] with
  | none => none
  | some grouped => latestOut grouped []

/-- Python `range(start, stop)` over integers. -/
def intRange (start stop : Int) : List Int :=
  (List.range (stop - start).toNat).map (fun (i : Nat) => start + (i : Int))

/-- `flang_prev_major_policy_map`: for each consumer major in the inclusive
range, look up the previous major (a miss stores `None`). -/
def flangPrevMajorPolicyMap (llvmMajorToLatest : List (Str × Str))
    (startMajor endMajor : Int) : List (Str × Option Str) :=
  (intRange startMajor (endMajor + 1)).foldl
    (fun out m => alInsert out (intStr m) (alGet llvmMajorToLatest (intStr (m - 1))))
    []

/-- The explicit-version lookup the engine performs for a sorted member:
`section_explicit.get(str(sv))` (absent key and stored `None` coincide). -/
def expOfKey (sectionExplicit : List (Str × Option SemVer)) (v : SemVer) :
    Option SemVer :=
  (alGet sectionExplicit (svToStr v)).bind id

/-- Position and member of the first release with an explicit mention in a
branch walk (the engine's `first_known_index` bookkeeping, as a spec value). -/
def firstExpIn (E : SemVer → Option SemVer) : List SemVer → Option (Nat × SemVer)
  | [] => none
  | u :: rest =>
    if (E u).isSome then some (0, u)
    else (firstExpIn E rest).map (fun p => (p.1 + 1, p.2))

/-- The engine's `(current known version, current anchor)` pair after walking
a list of members, starting from a given pair. -/
def curAfter (E : SemVer → Option SemVer) (l : List SemVer)
    (cv : Option SemVer) (ca : Option Str) : Option SemVer × Option Str :=
  l.foldl
    (fun c u =>
      match E u with
      | some w => (some w, some (svToStr u))
      | none => c)
    (cv, ca)

/-- The last member of a walk carrying an explicit mention, if any. -/
def lastExpIn (E : SemVer → Option SemVer) (l : List SemVer) : Option SemVer :=
  l.foldl (fun c u => if (E u).isSome then some u else c) none

/-- The triple the branch inference engine assigns to the member `v` of a
sorted branch `s`, where `p` is the part of `s` strictly before `v`. -/
def branchResult (E : SemVer → Option SemVer) (s p : List SemVer) (v : SemVer) :
    Triple :=
  match E v with
  | some w => ⟨some w, some (svToStr v), Mode.explicit⟩
  | none =>
    match firstExpIn E s with
    | none => ⟨none, none, Mode.unknown⟩
    | some (j, u) =>
      if p.length < j then ⟨E u, some (svToStr u), Mode.backwardFill⟩
      else
        match curAfter E p none none with
        | (some w, a) => ⟨some w, a, Mode.forwardFill⟩
        | (none, _) => ⟨none, none, Mode.unknown⟩

/-- The branch bucket a release belongs to: all input releases sharing its
`short_branch`, in input order. -/
def branchMembers (svs : List SemVer) (v : SemVer) : List SemVer :=
  svs.filter (fun u => shortBranchStr u = shortBranchStr v)

/-! ### Numeric-string lemmas -/

theorem digitVal_digitChar {d : Nat} (h : d < 10) : digitVal (digitChar d) = d := by
  interval_cases d <;> decide

theorem isDigit_digitChar {d : Nat} (h : d < 10) : (digitChar d).isDigit = true := by
  interval_cases d <;> decide

theorem natStrAux_spec (fuel n : Nat) (h : n < fuel) :
    digitsToNat (natStrAux fuel n) = n ∧ natStrAux fuel n ≠ [] ∧
      ∀ c ∈ natStrAux fuel n, c.isDigit = true := by
  induction fuel generalizing n with
  | zero => omega
  | succ fuel ih =>
    by_cases hn : n < 10
    · simp only [natStrAux, if_pos hn]
      refine ⟨?_, by simp, ?_⟩
      · simp [digitsToNat, digitVal_digitChar hn]
      · intro c hc
        simp only [List.mem_singleton] at hc
        subst hc
        exact isDigit_digitChar hn
    · simp only [natStrAux, if_neg hn]
      have hrec : n / 10 < fuel := by omega
      obtain ⟨ih1, ih2, ih3⟩ := ih (n / 10) hrec
      refine ⟨?_, by simp, ?_⟩
      · rw [digitsToNat, List.foldl_append, ← digitsToNat]
        simp only [List.foldl_cons, List.foldl_nil]
        rw [ih1, digitVal_digitChar (by omega)]
        omega
      · intro c hc
        rcases List.mem_append.mp hc with hc1 | hc2
        · exact ih3 c hc1
        · simp only [List.mem_singleton] at hc2
          subst hc2
          exact isDigit_digitChar (by omega)

theorem digitsToNat_natStr (n : Nat) : digitsToNat (natStr n) = n :=
  (natStrAux_spec (n + 1) n (by omega)).1

theorem natStr_inj {m n : Nat} (h : natStr m = natStr n) : m = n := by
  have := digitsToNat_natStr m
  rw [h, digitsToNat_natStr] at this
  exact this.symm

theorem natStr_all_digits (n : Nat) : ∀ c ∈ natStr n, c.isDigit = true :=
  (natStrAux_spec (n + 1) n (by omega)).2.2

theorem natStr_ne_nil (n : Nat) : natStr n ≠ [] :=
  (natStrAux_spec (n + 1) n (by omega)).2.1

/-! ### takeWhile / dropWhile splitting lemmas -/

theorem takeWhile_all_append {p : Char → Bool} {a : Str} (b : Char) (t : Str)
    (ha : ∀ c ∈ a, p c = true) (hb : p b = false) :
    (a ++ b :: t).takeWhile p = a ∧ (a ++ b :: t).dropWhile p = b :: t := by
  induction a with
  | nil => simp [List.takeWhile, List.dropWhile, hb]
  | cons c a ih =>
    have hc : p c = true := ha c (by simp)
    have iha := ih (fun x hx => ha x (by simp [hx]))
    simp [List.takeWhile, List.dropWhile, hc, iha.1, iha.2]

theorem takeWhile_all {p : Char → Bool} {a : Str} (ha : ∀ c ∈ a, p c = true) :
    a.takeWhile p = a ∧ a.dropWhile p = [] := by
  constructor
  · exact List.takeWhile_eq_self_iff.mpr ha
  · exact List.dropWhile_eq_nil_iff.mpr ha

theorem matchDigits1_append_stop {a : Str} (b : Char) (t : Str)
    (ha : ∀ c ∈ a, c.isDigit = true) (hne : a ≠ []) (hb : b.isDigit = false) :
    matchDigits1 (a ++ b :: t) = some (a, b :: t) := by
  have h := takeWhile_all_append b t ha hb
  simp [matchDigits1, takeDigits, h.1, h.2, hne]

theorem matchDigits1_all {a : Str} (ha : ∀ c ∈ a, c.isDigit = true)
    (hne : a ≠ []) : matchDigits1 a = some (a, []) := by
  have h := takeWhile_all ha
  simp [matchDigits1, takeDigits, h.1, h.2, hne]

/-! ### Round-trip: `parse ∘ str = id` -/

theorem parse_svToStr (v : SemVer) : SemVer.parse (svToStr v) = some v := by
  obtain ⟨M, m, p⟩ := v
  have h1 : matchDigits1
      (natStr M ++ '.' :: (natStr m ++ '.' :: natStr p)) =
      some (natStr M, '.' :: (natStr m ++ '.' :: natStr p)) :=
    matchDigits1_append_stop _ _ (natStr_all_digits M) (natStr_ne_nil M) (by decide)
  have h2 : matchDigits1 (natStr m ++ '.' :: natStr p) =
      some (natStr m, '.' :: natStr p) :=
    matchDigits1_append_stop _ _ (natStr_all_digits m) (natStr_ne_nil m) (by decide)
  have h3 : matchDigits1 (natStr p) = some (natStr p, []) :=
    matchDigits1_all (natStr_all_digits p) (natStr_ne_nil p)
  simp [SemVer.parse, semverOnlyMatch, svToStr, h1, h2, h3,
    digitsToNat_natStr]

theorem svToStr_inj {u v : SemVer} (h : svToStr u = svToStr v) : u = v := by
  have hu := parse_svToStr u
  rw [h, parse_svToStr] at hu
  exact (Option.some_inj.mp hu).symm

theorem shortBranchStr_inj {u v : SemVer} :
    shortBranchStr u = shortBranchStr v ↔ u.major = v.major ∧ u.minor = v.minor := by
  constructor
  · intro h
    have htw := congrArg (List.takeWhile Char.isDigit) h
    have hu := takeWhile_all_append (a := natStr u.major) '.' (natStr u.minor)
      (natStr_all_digits _) (by decide)
    have hv := takeWhile_all_append (a := natStr v.major) '.' (natStr v.minor)
      (natStr_all_digits _) (by decide)
    rw [shortBranchStr, shortBranchStr, hu.1, hv.1] at htw
    have hmaj : u.major = v.major := natStr_inj htw
    refine ⟨hmaj, ?_⟩
    rw [shortBranchStr, shortBranchStr, htw] at h
    have hc := List.append_cancel_left h
    have hm : natStr u.minor = natStr v.minor := by
      injection hc
    exact natStr_inj hm
  · intro ⟨h1, h2⟩
    simp [shortBranchStr, h1, h2]

/-! ### Association-list (Python dict) lemmas -/

theorem alGet_alInsert_self {κ α : Type} [DecidableEq κ]
    (m : List (κ × α)) (k : κ) (v : α) : alGet (alInsert m k v) k = some v := by
  induction m with
  | nil => simp [alInsert, alGet]
  | cons p rest ih =>
    obtain ⟨k₁, v₁⟩ := p
    by_cases h : k₁ = k <;> simp [alInsert, alGet, h, ih]

theorem alGet_alInsert_ne {κ α : Type} [DecidableEq κ]
    (m : List (κ × α)) (k k₂ : κ) (v : α) (h : k ≠ k₂) :
    alGet (alInsert m k v) k₂ = alGet m k₂ := by
  induction m with
  | nil => simp [alInsert, alGet, h]
  | cons p rest ih =>
    obtain ⟨k₁, v₁⟩ := p
    by_cases h1 : k₁ = k <;> by_cases h2 : k₁ = k₂ <;>
      simp_all [alInsert, alGet]

theorem alInsert_keys_of_mem {κ α : Type} [DecidableEq κ]
    (m : List (κ × α)) (k : κ) (v : α) (h : k ∈ m.map Prod.fst) :
    (alInsert m k v).map Prod.fst = m.map Prod.fst := by
  induction m with
  | nil => simp at h
  | cons p rest ih =>
    obtain ⟨k₁, v₁⟩ := p
    by_cases h1 : k₁ = k
    · simp [alInsert, h1]
    · simp only [List.map_cons, List.mem_cons] at h
      rcases h with h | h
    
      · exact absurd h.symm h1
      · simp [alInsert, h1, ih h]

theorem alInsert_keys_of_not_mem {κ α : Type} [DecidableEq κ]
    (m : List (κ × α)) (k : κ) (v : α) (h : k ∉ m.map Prod.fst) :
    (alInsert m k v).map Prod.fst = m.map Prod.fst ++ [k] := by
  induction m with
  | nil => simp [alInsert]
  | cons p rest ih =>
    obtain ⟨k₁, v₁⟩ := p
    simp only [List.map_cons, List.mem_cons] at h
    push_neg at h
    simp [alInsert, Ne.symm h.1, ih h.2]

theorem alGet_none_of_not_mem {κ α : Type} [DecidableEq κ]
    {m : List (κ × α)} {k : κ} (h : k ∉ m.map Prod.fst) : alGet m k = none := by
  induction m with
  | nil => rfl
  | cons p rest ih =>
    obtain ⟨k₁, v₁⟩ := p
    simp only [List.map_cons, List.mem_cons] at h
    push_neg at h
    simp [alGet, Ne.symm h.1, ih h.2]

theorem alGet_isSome_of_mem {κ α : Type} [DecidableEq κ]
    {m : List (κ × α)} {k : κ} (h : k ∈ m.map Prod.fst) :
    (alGet m k).isSome = true := by
  induction m with
  | nil => simp at h
  | cons p rest ih =>
    obtain ⟨k₁, v₁⟩ := p
    by_cases h1 : k₁ = k
    · simp [alGet, h1]
    · simp only [List.map_cons, List.mem_cons] at h
      rcases h with h | h
      · exact absurd h.symm h1
      · simp [alGet, h1, ih h]

theorem alGet_of_mem_nodup {κ α : Type} [DecidableEq κ]
    {m : List (κ × α)} {k : κ} {v : α} (hnd : (m.map Prod.fst).Nodup)
    (h : (k, v) ∈ m) : alGet m k = some v := by
  induction m with
  | nil => simp at h
  | cons p rest ih =>
    obtain ⟨k₁, v₁⟩ := p
    simp only [List.map_cons, List.nodup_cons] at hnd
    rcases List.mem_cons.mp h with h | h
    · obtain ⟨h1, h2⟩ := Prod.mk.injEq .. ▸ h
      simp [alGet, h1.symm, h2]
    · have hk : k₁ ≠ k := by
        intro rfl1
        exact hnd.1 (by subst rfl1; exact List.mem_map.mpr ⟨(k₁, v), h, rfl⟩)
      simp [alGet, hk, ih hnd.2 h]

theorem alGet_mem {κ α : Type} [DecidableEq κ]
    {m : List (κ × α)} {k : κ} {v : α} (h : alGet m k = some v) : (k, v) ∈ m := by
  induction m with
  | nil => simp [alGet] at h
  | cons p rest ih =>
    obtain ⟨k₁, v₁⟩ := p
    by_cases h1 : k₁ = k
    · simp [alGet, h1] at h
      simp [h1, h]
    · simp [alGet, h1] at h
      exact List.mem_cons_of_mem _ (ih h)

theorem alGet_alPush_self {κ α : Type} [DecidableEq κ]
    (m : List (κ × List α)) (k : κ) (x : α) :
    alGet (alPush m k x) k = some ((alGet m k).getD [] ++ [x]) := by
  induction m with
  | nil => simp [alPush, alGet]
  | cons p rest ih =>
    obtain ⟨k₁, l⟩ := p
    by_cases h : k₁ = k <;> simp [alPush, alGet, h, ih]

theorem alGet_alPush_ne {κ α : Type} [DecidableEq κ]
    (m : List (κ × List α)) (k k₂ : κ) (x : α) (h : k ≠ k₂) :
    alGet (alPush m k x) k₂ = alGet m k₂ := by
  induction m with
  | nil => simp [alPush, alGet, h]
  | cons p rest ih =>
    obtain ⟨k₁, l⟩ := p
    by_cases h1 : k₁ = k <;> by_cases h2 : k₁ = k₂ <;>
      simp_all [alPush, alGet]

theorem alPush_keys {κ α : Type} [DecidableEq κ]
    (m : List (κ × List α)) (k : κ) (x : α) :
    (alPush m k x).map Prod.fst =
      if k ∈ m.map Prod.fst then m.map Prod.fst else m.map Prod.fst ++ [k] := by
  induction m with
  | nil => simp [alPush]
  | cons p rest ih =>
    obtain ⟨k₁, l⟩ := p
    by_cases h : k₁ = k
    · simp [alPush, h]
    · simp only [alPush, if_neg h, List.map_cons, List.mem_cons, ih]
      by_cases h2 : k ∈ rest.map Prod.fst <;> simp [h2, Ne.symm h]

theorem alPush_keys_nodup {κ α : Type} [DecidableEq κ]
    (m : List (κ × List α)) (k : κ) (x : α) (h : (m.map Prod.fst).Nodup) :
    ((alPush m k x).map Prod.fst).Nodup := by
  rw [alPush_keys]
  by_cases h2 : k ∈ m.map Prod.fst
  · simpa [h2]
  · simpa [h2, List.nodup_append] using h

/-! ### Tuple-order lemmas for `SemVer` -/

theorem svLt_iff {a b : SemVer} : svLt a b = true ↔
    a.major < b.major ∨ (a.major = b.major ∧ (a.minor < b.minor ∨
      (a.minor = b.minor ∧ a.patch < b.patch))) := by
  simp [svLt, decide_eq_true_eq]

theorem svLe_iff {a b : SemVer} : svLe a b = true ↔ svLt a b = true ∨ a = b := by
  simp [svLe, decide_eq_true_eq]

theorem svLt_trans {a b c : SemVer} (h1 : svLt a b = true) (h2 : svLt b c = true) :
    svLt a c = true := by
  rw [svLt_iff] at *
  omega

theorem svLt_total (a b : SemVer) :
    svLt a b = true ∨ svLt b a = true ∨ a = b := by
  by_cases h1 : svLt a b = true
  · exact Or.inl h1
  · by_cases h2 : svLt b a = true
    · exact Or.inr (Or.inl h2)
    · refine Or.inr (Or.inr ?_)
      obtain ⟨x1, y1, z1⟩ := a
      obtain ⟨x2, y2, z2⟩ := b
      rw [svLt_iff] at h1 h2
      simp only [SemVer.mk.injEq]
      simp only [] at h1 h2
      omega

theorem svLe_trans_lt {a b c : SemVer} (h1 : svLe a b = true)
    (h2 : svLt b c = true) : svLe a c = true := by
  rcases svLe_iff.mp h1 with h | rfl
  · exact svLe_iff.mpr (Or.inl (svLt_trans h h2))
  · exact svLe_iff.mpr (Or.inl h2)

/-! ### `pyMax` is the tuple maximum -/

theorem svLe_refl (a : SemVer) : svLe a a = true := svLe_iff.mpr (Or.inr rfl)

theorem svLe_trans {a b c : SemVer} (h1 : svLe a b = true)
    (h2 : svLe b c = true) : svLe a c = true := by
  rcases svLe_iff.mp h1 with h1 | rfl
  · rcases svLe_iff.mp h2 with h2 | rfl
    · exact svLe_iff.mpr (Or.inl (svLt_trans h1 h2))
    · exact svLe_iff.mpr (Or.inl h1)
  · exact h2

theorem svLe_of_not_lt {a b : SemVer} (h : ¬ svLt a b = true) :
    svLe b a = true := by
  rcases svLt_total a b with h1 | h1 | rfl
  · exact absurd h1 h
  · exact svLe_iff.mpr (Or.inl h1)
  · exact svLe_refl a

theorem foldMax_spec (rest : List SemVer) (x : SemVer) :
    (rest.foldl (fun m y => if svLt m y then y else m) x = x ∨
      rest.foldl (fun m y => if svLt m y then y else m) x ∈ rest) ∧
      svLe x (rest.foldl (fun m y => if svLt m y then y else m) x) = true ∧
      ∀ w ∈ rest, svLe w (rest.foldl (fun m y => if svLt m y then y else m) x) = true := by
  induction rest generalizing x with
  | nil => exact ⟨Or.inl rfl, svLe_refl x, by simp⟩
  | cons y rest ih =>
    simp only [List.foldl_cons]
    by_cases h : svLt x y = true
    · rw [if_pos h]
      obtain ⟨hmem, hle, hall⟩ := ih y
      refine ⟨?_, ?_, ?_⟩
      · rcases hmem with h1 | h1 <;> simp [h1]
      · exact svLe_trans (svLe_iff.mpr (Or.inl h)) hle
      · intro w hw
        rcases List.mem_cons.mp hw with rfl | hw2
        · exact hle
        · exact hall w hw2
    · rw [if_neg h]
      obtain ⟨hmem, hle, hall⟩ := ih x
      refine ⟨?_, ?_, ?_⟩
      · rcases hmem with h1 | h1 <;> simp [h1]
      · exact hle
      · intro w hw
        rcases List.mem_cons.mp hw with rfl | hw2
        · exact svLe_trans (svLe_of_not_lt h) hle
        · exact hall w hw2

theorem pyMax_none_iff (l : List SemVer) : pyMax l = none ↔ l = [] := by
  cases l <;> simp [pyMax]

theorem pyMax_spec {l : List SemVer} {v : SemVer} (h : pyMax l = some v) :
    v ∈ l ∧ ∀ w ∈ l, svLe w v = true := by
  match l with
  | [] => simp [pyMax] at h
  | x :: rest =>
    have hv : rest.foldl (fun m y => if svLt m y then y else m) x = v := by
      simpa [pyMax] using h
    obtain ⟨hmem, hle, hall⟩ := foldMax_spec rest x
    rw [hv] at hmem hle hall
    refine ⟨?_, ?_⟩
    · rcases hmem with h1 | h1
      · simp [h1.symm]
      · simp [h1]
    · intro w hw
      rcases List.mem_cons.mp hw with rfl | hw2
      · exact hle
      · exact hall w hw2

/-! ### Inversion of greedy digit matching -/

theorem matchDigits1_some_inv {cs g r : Str} (h : matchDigits1 cs = some (g, r)) :
    cs = g ++ r ∧ g ≠ [] ∧ (∀ c ∈ g, c.isDigit = true) := by
  simp only [matchDigits1, takeDigits] at h
  by_cases hcond : cs.takeWhile Char.isDigit = []
  · simp [hcond] at h
  · simp only [hcond, if_neg, ite_false] at h
    obtain ⟨hg, hr⟩ := Prod.mk.injEq .. ▸ Option.some_inj.mp h
    subst hg; subst hr
    exact ⟨(List.takeWhile_append_dropWhile _ _).symm, hcond,
      fun c hc => List.mem_takeWhile_imp hc⟩

/-- C5 (the structure of `highest_llvm_version_in_section`): absent iff no
occurrence, and any returned value is a tuple-maximal occurrence. -/
theorem c5_highest_is_max (sectionLines : List Str) :
    (highestLlvmVersionInSection sectionLines = none ↔
      sectionLines.foldl (fun acc line => acc ++ llvmScan line) [] = []) ∧
    ∀ v, highestLlvmVersionInSection sectionLines = some v →
      v ∈ sectionLines.foldl (fun acc line => acc ++ llvmScan line) [] ∧
      ∀ w ∈ sectionLines.foldl (fun acc line => acc ++ llvmScan line) [],
        svLe w v = true := by
  constructor
  · exact pyMax_none_iff _
  · intro v hv
    exact pyMax_spec hv

/-- C3 counterexample: the text `"1.2.3\n"` is not precisely
digits-dot-digits-dot-digits, yet `SemVer.parse` returns a value instead of
raising. -/
theorem c3_counterexample :
    SemVer.parse ['1', '.', '2', '.', '3', '\n'] = some ⟨1, 2, 3⟩ ∧
      ¬ specExactSemver ['1', '.', '2', '.', '3', '\n'] := by
  constructor
  · decide
  · rintro ⟨a, b, c, ha, hb, hc, hda, hdb, hdc, heq⟩
    have hmem : '\n' ∈ a ++ '.' :: b ++ '.' :: c := by
      rw [← heq]; decide
    simp only [List.mem_append, List.mem_cons] at hmem
    have hna : '\n' ∉ a := fun hx => absurd (hda _ hx) (by decide)
    have hnb : '\n' ∉ b := fun hx => absurd (hdb _ hx) (by decide)
    have hnc : '\n' ∉ c := fun hx => absurd (hdc _ hx) (by decide)
    have hdot : ('\n' : Char) ≠ '.' := by decide
    tauto

theorem semverOnlyMatch_some_inv {cs : Str} {t : Nat × Nat × Nat}
    (h : semverOnlyMatch cs = some t) :
    ∃ a b c : Str, a ≠ [] ∧ b ≠ [] ∧ c ≠ [] ∧
      (∀ ch ∈ a, ch.isDigit = true) ∧ (∀ ch ∈ b, ch.isDigit = true) ∧
      (∀ ch ∈ c, ch.isDigit = true) ∧
      (cs = (a ++ '.' :: b ++ '.' :: c) ∨ cs = (a ++ '.' :: b ++ '.' :: c) ++ ['\n']) ∧
      t = (digitsToNat a, digitsToNat b, digitsToNat c) := by
  unfold semverOnlyMatch at h
  split at h
  · exact absurd h (by simp)
  · split at h
    · split at h
      · exact absurd h (by simp)
      · split at h
        · split at h
          · exact absurd h (by simp)
          · split at h
            · rename_i o1 a u1 r1x heq1 o2 b u2 r2x heq2 o3 c r3 heq3 hcond
              obtain ⟨hcs, hane, hda⟩ := matchDigits1_some_inv heq1
              obtain ⟨hr1, hbne, hdb⟩ := matchDigits1_some_inv heq2
              obtain ⟨hr2, hcne, hdc⟩ := matchDigits1_some_inv heq3
              refine ⟨a, b, c, hane, hbne, hcne, hda, hdb, hdc, ?_, ?_⟩
              · rw [hcs, hr1, hr2]
                simp only [Bool.or_eq_true, decide_eq_true_eq] at hcond
                rcases hcond with rfl | rfl
                · left; simp
                · right; simp
              · exact (Option.some_inj.mp h).symm
            · exact absurd h (by simp)
        · exact absurd h (by simp)
    · exact absurd h (by simp)

theorem parse_exact (a b c : Str) (hane : a ≠ []) (hbne : b ≠ []) (hcne : c ≠ [])
    (hda : ∀ ch ∈ a, ch.isDigit = true) (hdb : ∀ ch ∈ b, ch.isDigit = true)
    (hdc : ∀ ch ∈ c, ch.isDigit = true) :
    SemVer.parse (a ++ '.' :: b ++ '.' :: c) =
      some ⟨digitsToNat a, digitsToNat b, digitsToNat c⟩ ∧
    SemVer.parse ((a ++ '.' :: b ++ '.' :: c) ++ ['\n']) =
      some ⟨digitsToNat a, digitsToNat b, digitsToNat c⟩ := by
  constructor
  · have h1 := matchDigits1_append_stop (a := a) '.' (b ++ '.' :: c) hda hane (by decide)
    have h2 := matchDigits1_append_stop (a := b) '.' c hdb hbne (by decide)
    have h3 := matchDigits1_all hdc hcne
    simp [SemVer.parse, semverOnlyMatch, h1, h2, h3]
  · have heqL : (a ++ '.' :: b ++ '.' :: c) ++ ['\n'] =
        a ++ '.' :: (b ++ '.' :: (c ++ ['\n'])) := by simp
    rw [heqL]
    have h1 := matchDigits1_append_stop (a := a) '.' (b ++ '.' :: (c ++ ['\n']))
      hda hane (by decide)
    have h2 := matchDigits1_append_stop (a := b) '.' (c ++ ['\n']) hdb hbne (by decide)
    have h3 := matchDigits1_append_stop (a := c) '\n' [] hdc hcne (by decide)
    simp [SemVer.parse, semverOnlyMatch, h1, h2, h3]

/-- C3 (amended): `SemVer.parse` raises exactly when the text is not
digits-dot-digits-dot-digits optionally followed by one trailing newline, and
on success returns the numeric (major, minor, patch) triple. -/
theorem c3_parse_contract (cs : Str) :
    (SemVer.parse cs = none ↔
      ¬ (specExactSemver cs ∨ ∃ cs₀, specExactSemver cs₀ ∧ cs = cs₀ ++ ['\n'])) ∧
    (∀ a b c : Str, a ≠ [] → b ≠ [] → c ≠ [] →
      (∀ ch ∈ a, ch.isDigit = true) → (∀ ch ∈ b, ch.isDigit = true) →
      (∀ ch ∈ c, ch.isDigit = true) →
      (cs = a ++ '.' :: b ++ '.' :: c ∨ cs = (a ++ '.' :: b ++ '.' :: c) ++ ['\n']) →
      SemVer.parse cs = some ⟨digitsToNat a, digitsToNat b, digitsToNat c⟩) := by
  constructor
  · constructor
    · intro hnone hdec
      rcases hdec with ⟨a, b, c, hane, hbne, hcne, hda, hdb, hdc, heq⟩ |
        ⟨cs₀, ⟨a, b, c, hane, hbne, hcne, hda, hdb, hdc, heq⟩, hcs⟩
      · rw [heq] at hnone
        rw [(parse_exact a b c hane hbne hcne hda hdb hdc).1] at hnone
        exact Option.some_ne_none _ hnone
      · rw [hcs, heq] at hnone
        rw [(parse_exact a b c hane hbne hcne hda hdb hdc).2] at hnone
        exact Option.some_ne_none _ hnone
    · intro hn
      rcases hsm : semverOnlyMatch cs with _ | t
      · simp [SemVer.parse, hsm]
      · exfalso
        obtain ⟨a, b, c, hane, hbne, hcne, hda, hdb, hdc, hcs, _⟩ :=
          semverOnlyMatch_some_inv hsm
        apply hn
        rcases hcs with heq | heq
        · exact Or.inl ⟨a, b, c, hane, hbne, hcne, hda, hdb, hdc, heq⟩
        · exact Or.inr ⟨a ++ '.' :: b ++ '.' :: c,
            ⟨a, b, c, hane, hbne, hcne, hda, hdb, hdc, rfl⟩, heq⟩
  · intro a b c hane hbne hcne hda hdb hdc hcs
    rcases hcs with rfl | rfl
    · exact (parse_exact a b c hane hbne hcne hda hdb hdc).1
    · exact (parse_exact a b c hane hbne hcne hda hdb hdc).2

theorem c3_parse_contract_witness :
    SemVer.parse (['1'] ++ '.' :: ['2'] ++ '.' :: ['3']) =
      some ⟨digitsToNat ['1'], digitsToNat ['2'], digitsToNat ['3']⟩ :=
  (c3_parse_contract (['1'] ++ '.' :: ['2'] ++ '.' :: ['3'])).2
    ['1'] ['2'] ['3'] (by decide) (by decide) (by decide)
    (by decide) (by decide) (by decide) (Or.inl rfl)

/-! ### C10: unterminated `struct(` blocks in `parse_revisions_bzl` -/

theorem revLoop_no_term (post : List Str) (st : RevState) {rel : Str}
    (hcr : st.currentRelease = some rel)
    (hpost : ∀ l ∈ post, pyStrip l ≠ [')', ',']) :
    (post.foldl revStep st).out = st.out := by
  induction post generalizing st with
  | nil => rfl
  | cons l post ih =>
    obtain ⟨out0, cr0, cf0⟩ := st
    simp only at hcr
    subst hcr
    simp only [List.foldl_cons]
    cases hfm : revisionFieldMatch l with
    | some p =>
      obtain ⟨f, hex⟩ := p
      rw [show revStep ⟨out0, some rel, cf0⟩ l = ⟨out0, some rel, alInsert cf0 f hex⟩ by
        simp [revStep, hfm]]
      exact ih _ rfl (fun x hx => hpost x (by simp [hx]))
    | none =>
      rw [show revStep ⟨out0, some rel, cf0⟩ l = ⟨out0, some rel, cf0⟩ by
        simp [revStep, hfm, hpost l (by simp)]]
      exact ih _ rfl (fun x hx => hpost x (by simp [hx]))

/-- C10: a release block opened by a `"<version>": struct(` line that is never
followed by a line stripping to `),` contributes no entry: the parse of the
whole document equals the parse of the part before the block. -/
theorem c10_unterminated_block (pre post : List Str) (line rel : Str)
    (hpre : (pre.foldl revStep ⟨[], none, []⟩).currentRelease = none)
    (hline : revisionStartMatch line = some rel)
    (hpost : ∀ l ∈ post, pyStrip l ≠ [')', ',']) :
    parseRevisionsBzlLines (pre ++ line :: post) = parseRevisionsBzlLines pre := by
  unfold parseRevisionsBzlLines
  rw [List.foldl_append]
  simp only [List.foldl_cons]
  have hstep : revStep (pre.foldl revStep ⟨[], none, []⟩) line =
      ⟨(pre.foldl revStep ⟨[], none, []⟩).out, some rel, []⟩ := by
    simp [revStep, hpre, hline]
  rw [hstep]
  exact revLoop_no_term post _ rfl hpost

theorem c10_unterminated_block_witness :
    parseRevisionsBzlLines
        ([] ++ ("\"1.2.3\": struct(".toList) ::
          [("    hash = \"ab\",".toList)]) =
      parseRevisionsBzlLines [] :=
  c10_unterminated_block [] [("    hash = \"ab\",".toList)]
    ("\"1.2.3\": struct(".toList) ("1.2.3".toList)
    (by decide) (by decide) (by decide)

/-! ### C9: the previous-major policy map -/

theorem natStr_head_digit (n : Nat) :
    ∃ c t, natStr n = c :: t ∧ c.isDigit = true := by
  cases h : natStr n with
  | nil => exact absurd h (natStr_ne_nil n)
  | cons c t =>
    exact ⟨c, t, rfl, natStr_all_digits n c (by simp [h])⟩

theorem intStr_inj {i j : Int} (h : intStr i = intStr j) : i = j := by
  unfold intStr at h
  by_cases hi : i < 0 <;> by_cases hj : j < 0 <;> simp only [hi, hj, if_pos, if_neg,
    ite_true, ite_false] at h
  · have := natStr_inj (List.cons_injective.eq_iff.mp h)
    omega
  · obtain ⟨c, t, hct, hcd⟩ := natStr_head_digit j.natAbs
    rw [hct] at h
    have : ('-' : Char) = c := (List.cons.injEq .. ▸ h).1
    rw [← this] at hcd
    exact absurd hcd (by decide)
  · obtain ⟨c, t, hct, hcd⟩ := natStr_head_digit i.natAbs
    rw [hct] at h
    have : c = ('-' : Char) := (List.cons.injEq .. ▸ h).1
    rw [this] at hcd
    exact absurd hcd (by decide)
  · have := natStr_inj h
    omega

theorem mem_intRange {s t m : Int} : m ∈ intRange s t ↔ s ≤ m ∧ m < t := by
  simp only [intRange, List.mem_map, List.mem_range]
  constructor
  · rintro ⟨i, hi, rfl⟩
    omega
  · intro ⟨h1, h2⟩
    refine ⟨(m - s).toNat, by omega, by omega⟩

theorem intRange_nodup (s t : Int) : (intRange s t).Nodup := by
  refine List.Nodup.map ?_ (List.nodup_range _)
  intro a b hab
  simp only at hab
  omega

theorem foldl_alInsert_keyval {κ α β : Type} [DecidableEq κ]
    (xs : List β) (key : β → κ) (val : β → α) (acc : List (κ × α))
    (hfresh : ∀ x ∈ xs, key x ∉ acc.map Prod.fst) (hnd : (xs.map key).Nodup) :
    ((xs.foldl (fun o x => alInsert o (key x) (val x)) acc).map Prod.fst =
      acc.map Prod.fst ++ xs.map key) ∧
    (∀ x ∈ xs, alGet (xs.foldl (fun o x => alInsert o (key x) (val x)) acc) (key x) =
      some (val x)) ∧
    (∀ k, k ∉ xs.map key →
      alGet (xs.foldl (fun o x => alInsert o (key x) (val x)) acc) k = alGet acc k) := by
  induction xs generalizing acc with
  | nil => exact ⟨by simp, by simp, fun k _ => rfl⟩
  | cons x xs ih =>
    simp only [List.map_cons, List.nodup_cons] at hnd
    have hxfresh : key x ∉ acc.map Prod.fst := hfresh x (by simp)
    have hkeys : (alInsert acc (key x) (val x)).map Prod.fst =
        acc.map Prod.fst ++ [key x] :=
      alInsert_keys_of_not_mem acc _ _ hxfresh
    have hfresh2 : ∀ y ∈ xs, key y ∉ (alInsert acc (key x) (val x)).map Prod.fst := by
      intro y hy
      rw [hkeys]
      simp only [List.mem_append, List.mem_singleton]
      push_neg
      exact ⟨hfresh y (by simp [hy]), fun hc => hnd.1 (hc ▸ List.mem_map_of_mem key hy)⟩
    obtain ⟨ihk, ihget, ihframe⟩ := ih _ hfresh2 hnd.2
    refine ⟨?_, ?_, ?_⟩
    · simp only [List.foldl_cons, ihk, hkeys, List.append_assoc, List.singleton_append,
        List.map_cons]
    · intro y hy
      rcases List.mem_cons.mp hy with rfl | hy2
      · simp only [List.foldl_cons]
        rw [ihframe _ hnd.1, alGet_alInsert_self]
      · simp only [List.foldl_cons]
        exact ihget y hy2
    · intro k hk
      simp only [List.map_cons, List.mem_cons] at hk
      push_neg at hk
      simp only [List.foldl_cons]
      rw [ihframe k hk.2, alGet_alInsert_ne _ _ _ _ (Ne.symm hk.1)]

/-- C9: the policy map's keys are exactly the consumer majors in the inclusive
range, in order, and the value stored for `m` is the (possibly absent) lookup
of `m - 1` in the major-to-latest-release mapping. -/
theorem c9_policy_map (llvmMajorToLatest : List (Str × Str))
    (startMajor endMajor : Int) :
    (∀ m : Int, startMajor ≤ m → m ≤ endMajor →
      alGet (flangPrevMajorPolicyMap llvmMajorToLatest startMajor endMajor)
          (intStr m) =
        some (alGet llvmMajorToLatest (intStr (m - 1)))) ∧
    (flangPrevMajorPolicyMap llvmMajorToLatest startMajor endMajor).map Prod.fst =
      (intRange startMajor (endMajor + 1)).map intStr := by
  have hnd : ((intRange startMajor (endMajor + 1)).map intStr).Nodup :=
    (intRange_nodup _ _).map (fun _ _ hab => intStr_inj hab)
  obtain ⟨hk, hget, _⟩ := foldl_alInsert_keyval (intRange startMajor (endMajor + 1))
    intStr (fun m => alGet llvmMajorToLatest (intStr (m - 1))) []
    (by simp) hnd
  constructor
  · intro m h1 h2
    exact hget m (mem_intRange.mpr ⟨h1, by omega⟩)
  · simpa using hk

theorem c9_policy_map_witness :
    alGet (flangPrevMajorPolicyMap
        [("19".toList, "2.1.0".toList), ("20".toList, "3.0.0".toList)] 20 21)
        (intStr 20) =
      some (alGet [("19".toList, "2.1.0".toList), ("20".toList, "3.0.0".toList)]
        (intStr 19)) :=
  (c9_policy_map [("19".toList, "2.1.0".toList), ("20".toList, "3.0.0".toList)]
    20 21).1 20 (by decide) (by decide)

/-! ### C6/C7: changelog section extraction -/

theorem header_of_underline {l : Str} (h : isSectionUnderline l = true) :
    sectionHeaderMatch l = none := by
  unfold isSectionUnderline at h
  simp only [Bool.and_eq_true, Bool.not_eq_eq_eq_not, Bool.not_true, List.all_eq_true,
    decide_eq_true_eq] at h
  cases hs : pyStrip l with
  | nil => rw [hs] at h; simp [List.isEmpty] at h
  | cons c t =>
    have hc : c = '-' := by
      have := h.2 c (by rw [hs]; simp)
      exact this
    subst hc
    have hmd : matchDigits1 ('-' :: t) = none := by
      simp [matchDigits1, takeDigits, List.takeWhile]
    simp [sectionHeaderMatch, hs, hmd]

theorem scanHeaders_mem (lines : List Str) (i₀ : Nat) (i : Nat) (key : Str) :
    (i, key) ∈ scanHeaders lines i₀ ↔
      (i₀ ≤ i ∧ i + 1 < lines.length ∧
        sectionHeaderMatch (lines.getD i []) = some key ∧
        isSectionUnderline (lines.getD (i + 1) []) = true) := by
  generalize hfuel : lines.length - i₀ = fuel
  induction fuel using Nat.strong_induction_on generalizing i₀ with
  | _ fuel ih =>
    rw [scanHeaders]
    by_cases hlt : i₀ < lines.length - 1
    · rw [dif_pos hlt]
      cases hhm : sectionHeaderMatch (lines.getD i₀ []) with
      | some k₀ =>
        dsimp only
        by_cases hund : isSectionUnderline (lines.getD (i₀ + 1) []) = true
        · rw [if_pos hund]
          have ih2 := ih (lines.length - (i₀ + 2)) (by omega) (i₀ + 2) rfl
          simp only [List.mem_cons, ih2, Prod.mk.injEq]
          constructor
          · rintro (⟨rfl, rfl⟩ | ⟨h1, h2, h3, h4⟩)
            · exact ⟨Nat.le_refl _, by omega, hhm, hund⟩
            · exact ⟨by omega, h2, h3, h4⟩
          · rintro ⟨h1, h2, h3, h4⟩
            rcases Nat.lt_or_ge i (i₀ + 2) with hlt2 | hge
            · rcases Nat.lt_or_ge i (i₀ + 1) with hlt1 | hge1
              · have : i = i₀ := by omega
                subst this
                rw [hhm] at h3
                exact Or.inl ⟨rfl, (Option.some_inj.mp h3).symm⟩
              · have : i = i₀ + 1 := by omega
                subst this
                rw [header_of_underline hund] at h3
                exact absurd h3 (by simp)
            · exact Or.inr ⟨hge, h2, h3, h4⟩
        · rw [if_neg hund]
          have ih2 := ih (lines.length - (i₀ + 1)) (by omega) (i₀ + 1) rfl
          rw [ih2]
          constructor
          · rintro ⟨h1, h2, h3, h4⟩
            exact ⟨by omega, h2, h3, h4⟩
          · rintro ⟨h1, h2, h3, h4⟩
            refine ⟨?_, h2, h3, h4⟩
            rcases Nat.lt_or_ge i (i₀ + 1) with hlt1 | hge1
            · have : i = i₀ := by omega
              subst this
              exact absurd h4 hund
            · exact hge1
      | none =>
        dsimp only
        have ih2 := ih (lines.length - (i₀ + 1)) (by omega) (i₀ + 1) rfl
        rw [ih2]
        constructor
        · rintro ⟨h1, h2, h3, h4⟩
          exact ⟨by omega, h2, h3, h4⟩
        · rintro ⟨h1, h2, h3, h4⟩
          refine ⟨?_, h2, h3, h4⟩
          rcases Nat.lt_or_ge i (i₀ + 1) with hlt1 | hge1
          · have : i = i₀ := by omega
            subst this
            rw [hhm] at h3
            exact absurd h3 (by simp)
          · exact hge1
    · rw [dif_neg hlt]
      simp only [List.not_mem_nil, false_iff]
      rintro ⟨h1, h2, h3, h4⟩
      omega

theorem addSections_get_frame (lines : List Str) (hs : List (Nat × Str))
    (acc : List (Str × List Str)) (key : Str) (h : ∀ p ∈ hs, p.2 ≠ key) :
    alGet (addSections lines hs acc) key = alGet acc key := by
  induction hs generalizing acc with
  | nil => rfl
  | cons p rest ih =>
    obtain ⟨j, k⟩ := p
    simp only [addSections]
    rw [ih _ (fun q hq => h q (by simp [hq]))]
    exact alGet_alInsert_ne _ _ _ _ (h (j, k) (by simp))

theorem addSections_get_last (lines : List Str) (hs₁ hs₂ : List (Nat × Str))
    (i : Nat) (key : Str) (acc : List (Str × List Str))
    (hlast : ∀ p ∈ hs₂, p.2 ≠ key) :
    alGet (addSections lines (hs₁ ++ (i, key) :: hs₂) acc) key =
      some (pySlice lines (i + 2) (hs₂.headD (lines.length, ([] : Str))).1) := by
  induction hs₁ generalizing acc with
  | nil =>
    simp only [List.nil_append, addSections]
    rw [addSections_get_frame _ _ _ _ hlast]
    cases hs₂ with
    | nil => exact alGet_alInsert_self _ _ _
    | cons q rest =>
      obtain ⟨next, k₂⟩ := q
      exact alGet_alInsert_self _ _ _
  | cons p rest ih =>
    obtain ⟨j, k⟩ := p
    simp only [List.cons_append, addSections]
    exact ih _

/-- C6: a line index is recorded as a section boundary exactly when the line
matches the header pattern and the following line is a dash underline; and the
body stored for a recorded header (the last one for its version) is exactly
the slice of lines from below its underline up to the next recorded header or
the end of the document. -/
theorem c6_boundaries_and_bodies (lines : List Str) :
    (∀ i key, (i, key) ∈ scanHeaders lines 0 ↔
      (i + 1 < lines.length ∧
        sectionHeaderMatch (lines.getD i []) = some key ∧
        isSectionUnderline (lines.getD (i + 1) []) = true)) ∧
    (∀ hs₁ hs₂ i key,
      scanHeaders lines 0 = hs₁ ++ (i, key) :: hs₂ →
      (∀ p ∈ hs₂, p.2 ≠ key) →
      alGet (parseChangelogSectionsLines lines) key =
        some (pySlice lines (i + 2) (hs₂.headD (lines.length, ([] : Str))).1)) := by
  constructor
  · intro i key
    rw [scanHeaders_mem]
    constructor
    · rintro ⟨_, h2, h3, h4⟩
      exact ⟨h2, h3, h4⟩
    · rintro ⟨h2, h3, h4⟩
      exact ⟨Nat.zero_le _, h2, h3, h4⟩
  · intro hs₁ hs₂ i key hsplit hlast
    unfold parseChangelogSectionsLines
    rw [hsplit]
    exact addSections_get_last lines hs₁ hs₂ i key [] hlast

/-- C7: with two recognized headers for the same version, the stored body is
the one belonging to the last header in document order. -/
theorem c7_duplicate_last_wins (lines : List Str) (hs₁ hs₂ hs₃ : List (Nat × Str))
    (i₁ i₂ : Nat) (key : Str)
    (hsplit : scanHeaders lines 0 = hs₁ ++ (i₁, key) :: hs₂ ++ (i₂, key) :: hs₃)
    (hlast : ∀ p ∈ hs₃, p.2 ≠ key) :
    alGet (parseChangelogSectionsLines lines) key =
      some (pySlice lines (i₂ + 2) (hs₃.headD (lines.length, ([] : Str))).1) := by
  unfold parseChangelogSectionsLines
  have hsplit2 : scanHeaders lines 0 =
      (hs₁ ++ (i₁, key) :: hs₂) ++ (i₂, key) :: hs₃ := by
    rw [hsplit]
  rw [hsplit2]
  exact addSections_get_last lines _ hs₃ i₂ key [] hlast

theorem c6_boundaries_and_bodies_witness :
    alGet (parseChangelogSectionsLines
        ["1.0.0".toList, "----".toList, "a".toList, "2.0.0".toList,
         "junk".toList, "3.0.0".toList, "----".toList, "b".toList])
      ("3.0.0".toList) =
      some (pySlice
        ["1.0.0".toList, "----".toList, "a".toList, "2.0.0".toList,
         "junk".toList, "3.0.0".toList, "----".toList, "b".toList] 7 8) :=
  (c6_boundaries_and_bodies
      ["1.0.0".toList, "----".toList, "a".toList, "2.0.0".toList,
       "junk".toList, "3.0.0".toList, "----".toList, "b".toList]).2
    [(0, "1.0.0".toList)] [] 5 ("3.0.0".toList)
    (by simp [scanHeaders]; decide) (by simp)

theorem c7_duplicate_last_wins_witness :
    alGet (parseChangelogSectionsLines
        ["1.0.0".toList, "----".toList, "a".toList, "1.0.0".toList,
         "----".toList, "b".toList])
      ("1.0.0".toList) =
      some (pySlice
        ["1.0.0".toList, "----".toList, "a".toList, "1.0.0".toList,
         "----".toList, "b".toList] 5 6) :=
  c7_duplicate_last_wins
    ["1.0.0".toList, "----".toList, "a".toList, "1.0.0".toList,
     "----".toList, "b".toList]
    [] [] [] 0 3 ("1.0.0".toList)
    (by simp [scanHeaders]; decide) (by simp)

/-! ### C8: grouping and maximum per LLVM major -/

theorem foldl_alPush_get {κ α β : Type} [DecidableEq κ] (xs : List β)
    (key : β → κ) (val : β → α) (acc : List (κ × List α)) (b : κ) :
    alGet (xs.foldl (fun a x => alPush a (key x) (val x)) acc) b =
      match alGet acc b with
      | some old => some (old ++ (xs.filter (fun x => decide (key x = b))).map val)
      | none =>
        if (xs.filter (fun x => decide (key x = b))).isEmpty then none
        else some ((xs.filter (fun x => decide (key x = b))).map val) := by
  induction xs generalizing acc with
  | nil =>
    simp only [List.foldl_nil, List.filter_nil, List.map_nil, List.append_nil,
      List.isEmpty_nil, if_true]
    cases alGet acc b <;> rfl
  | cons x xs ih =>
    simp only [List.foldl_cons]
    by_cases hk : key x = b
    · rw [ih]
      subst hk
      rw [alGet_alPush_self]
      simp only [List.filter_cons, decide_eq_true_eq, if_pos rfl, List.map_cons]
      cases hacc : alGet acc (key x) with
      | none => simp
      | some old => simp
    · rw [ih, alGet_alPush_ne _ _ _ _ hk]
      simp only [List.filter_cons, decide_eq_true_eq, if_neg hk]

theorem foldl_alPush_keys_nodup {κ α β : Type} [DecidableEq κ] (xs : List β)
    (key : β → κ) (val : β → α) (acc : List (κ × List α))
    (h : (acc.map Prod.fst).Nodup) :
    ((xs.foldl (fun a x => alPush a (key x) (val x)) acc).map Prod.fst).Nodup := by
  induction xs generalizing acc with
  | nil => exact h
  | cons x xs ih =>
    simp only [List.foldl_cons]
    exact ih _ (alPush_keys_nodup _ _ _ h)

theorem latestGroup_eq (input : List (SemVer × Option SemVer)) (minMajor : Int)
    (acc : List (Nat × List SemVer)) :
    latestGroup (input.map fun p => (svToStr p.1, p.2)) minMajor acc =
      some ((input.filterMap (fun p =>
          match p.2 with
          | some lv => if (lv.major : Int) < minMajor then none
                       else some (lv.major, p.1)
          | none => none)).foldl (fun a q => alPush a q.1 q.2) acc) := by
  induction input generalizing acc with
  | nil => rfl
  | cons p rest ih =>
    obtain ⟨r, olv⟩ := p
    cases olv with
    | none =>
      simp only [List.map_cons, latestGroup, List.filterMap_cons]
      exact ih acc
    | some lv =>
      by_cases hfl : (lv.major : Int) < minMajor
      · simp only [List.map_cons, latestGroup, List.filterMap_cons, if_pos hfl]
        exact ih acc
      · simp only [List.map_cons, latestGroup, List.filterMap_cons, if_neg hfl,
          parse_svToStr]
        exact ih _

theorem latestOut_spec (grouped : List (Nat × List SemVer))
    (out : List (Str × Str)) (hne : ∀ q ∈ grouped, q.2 ≠ [])
    (hnd : (grouped.map Prod.fst).Nodup)
    (hfresh : ∀ q ∈ grouped, natStr q.1 ∉ out.map Prod.fst) :
    ∃ res, latestOut grouped out = some res ∧
      (∀ q ∈ grouped, ∃ mx, pyMax q.2 = some mx ∧
        alGet res (natStr q.1) = some (svToStr mx)) ∧
      (∀ k, k ∉ grouped.map (fun q => natStr q.1) → alGet res k = alGet out k) := by
  induction grouped generalizing out with
  | nil => exact ⟨out, rfl, by simp, fun k _ => rfl⟩
  | cons q rest ih =>
    obtain ⟨m, l⟩ := q
    have hlne : l ≠ [] := hne (m, l) (by simp)
    obtain ⟨x, l', rfl⟩ := List.exists_cons_of_ne_nil hlne
    simp only [List.map_cons, List.nodup_cons] at hnd
    have hfresh2 : ∀ q ∈ rest,
        natStr q.1 ∉ (alInsert out (natStr m) (svToStr (l'.foldl
          (fun mv y => if svLt mv y then y else mv) x))).map Prod.fst := by
      intro q hq
      rw [alInsert_keys_of_not_mem _ _ _ (hfresh (m, x :: l') (by simp))]
      simp only [List.mem_append, List.mem_singleton]
      push_neg
      refine ⟨hfresh q (by simp [hq]), ?_⟩
      intro hc
      exact hnd.1 (natStr_inj hc ▸ List.mem_map_of_mem Prod.fst hq)
    obtain ⟨res, hres, hget, hframe⟩ := ih _
      (fun q hq => hne q (by simp [hq])) hnd.2 hfresh2
    refine ⟨res, ?_, ?_, ?_⟩
    · simpa [latestOut, pyMax] using hres
    · intro q hq
      rcases List.mem_cons.mp hq with rfl | hq2
      · refine ⟨_, rfl, ?_⟩
        have hnotin : natStr m ∉ rest.map (fun q => natStr q.1) := by
          intro hc
          rcases List.mem_map.mp hc with ⟨q2, hq2m, heq⟩
          exact hnd.1 (natStr_inj heq ▸ List.mem_map_of_mem Prod.fst hq2m)
        rw [hframe (natStr m) hnotin]
        exact alGet_alInsert_self _ _ _
      · exact hget q hq2
    · intro k hk
      simp only [List.map_cons, List.mem_cons] at hk
      push_neg at hk
      rw [hframe k hk.2, alGet_alInsert_ne _ _ _ _ (Ne.symm hk.1)]

/-- C8: the major-version aggregator ignores absent and below-floor entries
and maps each remaining compiler major (as its decimal string) to the
tuple-greatest release among the ones inferred to that major. -/
theorem c8_latest_release (input : List (SemVer × Option SemVer)) (minMajor : Int) :
    ∃ out,
      latestReleasePerLlvmMajor (input.map fun p => (svToStr p.1, p.2)) minMajor =
        some out ∧
      ∀ m : Nat,
        (((input.filterMap (fun p =>
              match p.2 with
              | some lv => if (lv.major : Int) < minMajor then none
                           else some (lv.major, p.1)
              | none => none)).filter (fun q => decide (q.1 = m))).map Prod.snd = [] →
            alGet out (natStr m) = none) ∧
          (((input.filterMap (fun p =>
              match p.2 with
              | some lv => if (lv.major : Int) < minMajor then none
                           else some (lv.major, p.1)
              | none => none)).filter (fun q => decide (q.1 = m))).map Prod.snd ≠ [] →
            (alGet out (natStr m)).isSome = true) ∧
          ∀ s, alGet out (natStr m) = some s →
            ∃ v, v ∈ ((input.filterMap (fun p =>
                match p.2 with
                | some lv => if (lv.major : Int) < minMajor then none
                             else some (lv.major, p.1)
                | none => none)).filter (fun q => decide (q.1 = m))).map Prod.snd ∧
              s = svToStr v ∧
              ∀ w ∈ ((input.filterMap (fun p =>
                  match p.2 with
                  | some lv => if (lv.major : Int) < minMajor then none
                               else some (lv.major, p.1)
                  | none => none)).filter (fun q => decide (q.1 = m))).map Prod.snd,
                svLe w v = true := by
  set Q := input.filterMap (fun p =>
    match p.2 with
    | some lv => if (lv.major : Int) < minMajor then none else some (lv.major, p.1)
    | none => none) with hQ
  set grouped := Q.foldl (fun a q => alPush a q.1 q.2) ([] : List (Nat × List SemVer))
    with hgrouped
  have hget_g : ∀ b : Nat, alGet grouped b =
      if (Q.filter (fun q => decide (q.1 = b))).isEmpty then none
      else some ((Q.filter (fun q => decide (q.1 = b))).map Prod.snd) := by
    intro b
    rw [hgrouped]
    have := foldl_alPush_get Q Prod.fst Prod.snd [] b
    simpa using this
  have hnodup : (grouped.map Prod.fst).Nodup := by
    rw [hgrouped]
    exact foldl_alPush_keys_nodup _ _ _ _ (by simp)
  have hne : ∀ q ∈ grouped, q.2 ≠ [] := by
    intro q hq hq2
    have hg := alGet_of_mem_nodup hnodup hq
    rw [hget_g q.1] at hg
    by_cases hemp : (Q.filter (fun x => decide (x.1 = q.1))).isEmpty
    · rw [if_pos hemp] at hg
      exact Option.noConfusion hg
    · rw [if_neg hemp] at hg
      have := Option.some_inj.mp hg
      rw [hq2] at this
      rw [List.isEmpty_iff] at hemp
      exact hemp (by
        have h2 := this.symm
        rcases hfe : Q.filter (fun x => decide (x.1 = q.1)) with _ | ⟨y, ys⟩
        · exact hfe
        · rw [hfe] at this
          simp at this)
  obtain ⟨res, hres, hget, hframe⟩ := latestOut_spec grouped [] hne hnodup (by simp)
  have hmain : latestReleasePerLlvmMajor (input.map fun p => (svToStr p.1, p.2))
      minMajor = some res := by
    unfold latestReleasePerLlvmMajor
    rw [latestGroup_eq input minMajor []]
    rw [← hQ, ← hgrouped]
    exact hres
  have hnatkeys : ∀ m : Nat, natStr m ∈ grouped.map (fun q => natStr q.1) →
      ∃ l, (m, l) ∈ grouped := by
    intro m hm
    rcases List.mem_map.mp hm with ⟨q, hqm, heq⟩
    refine ⟨q.2, ?_⟩
    rw [show m = q.1 from (natStr_inj heq).symm]
    exact hqm
  refine ⟨res, hmain, ?_⟩
  intro m
  refine ⟨?_, ?_, ?_⟩
  · intro hGe
    have hemp : (Q.filter (fun q => decide (q.1 = m))).isEmpty = true := by
      rw [List.isEmpty_iff]
      rcases hfe : Q.filter (fun q => decide (q.1 = m)) with _ | ⟨y, ys⟩
      · exact hfe
      · rw [hfe] at hGe
        simp at hGe
    have hkey : natStr m ∉ grouped.map (fun q => natStr q.1) := by
      intro hc
      obtain ⟨l, hl⟩ := hnatkeys m hc
      have := alGet_of_mem_nodup hnodup hl
      rw [hget_g m, if_pos hemp] at this
      exact Option.noConfusion this
    rw [hframe _ hkey]
    rfl
  · intro hGne
    have hemp : (Q.filter (fun q => decide (q.1 = m))).isEmpty = false := by
      rcases hfe : Q.filter (fun q => decide (q.1 = m)) with _ | ⟨y, ys⟩
      · rw [hfe] at hGne
        simp at hGne
      · rw [hfe]
        rfl
    have hmem : (m, (Q.filter (fun q => decide (q.1 = m))).map Prod.snd) ∈ grouped :=
      alGet_mem (by rw [hget_g m, hemp]; simp)
    obtain ⟨mx, _, hr⟩ := hget _ hmem
    simp only [hr, Option.isSome_some]
  · intro s hs
    by_cases hkey : natStr m ∈ grouped.map (fun q => natStr q.1)
    · obtain ⟨l, hl⟩ := hnatkeys m hkey
      obtain ⟨mx, hmx, hr⟩ := hget _ hl
      have hlG : l = (Q.filter (fun q => decide (q.1 = m))).map Prod.snd := by
        have := alGet_of_mem_nodup hnodup hl
        rw [hget_g m] at this
        by_cases hemp : (Q.filter (fun q => decide (q.1 = m))).isEmpty
        · rw [if_pos hemp] at this
          exact Option.noConfusion this
        · rw [if_neg hemp] at this
          exact Option.some_inj.mp this.symm
      simp only at hr
      rw [hs] at hr
      obtain ⟨hmem2, hall⟩ := pyMax_spec hmx
      refine ⟨mx, by rw [← hlG]; exact hmem2, Option.some_inj.mp hr, ?_⟩
      intro w hw
      exact hall w (by rw [hlG]; exact hw)
    · rw [hframe _ hkey] at hs
      exact absurd hs (by simp [alGet])

theorem c8_latest_release_witness :
    ∃ v, v ∈ (([((⟨2,0,0⟩ : SemVer), some (⟨16,0,0⟩ : SemVer)),
          (⟨2,1,0⟩, some ⟨16,0,0⟩), (⟨3,0,0⟩, some ⟨17,0,0⟩)].filterMap (fun p =>
        match p.2 with
        | some lv => if (lv.major : Int) < 16 then none
                     else some (lv.major, p.1)
        | none => none)).filter (fun q => decide (q.1 = 16))).map Prod.snd ∧
      "2.1.0".toList = svToStr v ∧
      ∀ w ∈ (([((⟨2,0,0⟩ : SemVer), some (⟨16,0,0⟩ : SemVer)),
          (⟨2,1,0⟩, some ⟨16,0,0⟩), (⟨3,0,0⟩, some ⟨17,0,0⟩)].filterMap (fun p =>
        match p.2 with
        | some lv => if (lv.major : Int) < 16 then none
                     else some (lv.major, p.1)
        | none => none)).filter (fun q => decide (q.1 = 16))).map Prod.snd,
        svLe w v = true := by
  obtain ⟨out, h1, h2⟩ := c8_latest_release
    [((⟨2,0,0⟩ : SemVer), some (⟨16,0,0⟩ : SemVer)),
     (⟨2,1,0⟩, some ⟨16,0,0⟩), (⟨3,0,0⟩, some ⟨17,0,0⟩)] 16
  have h3 : latestReleasePerLlvmMajor
      ([((⟨2,0,0⟩ : SemVer), some (⟨16,0,0⟩ : SemVer)),
        (⟨2,1,0⟩, some ⟨16,0,0⟩), (⟨3,0,0⟩, some ⟨17,0,0⟩)].map
        fun p => (svToStr p.1, p.2)) 16 =
      some [("16".toList, "2.1.0".toList), ("17".toList, "3.0.0".toList)] := by
    decide
  rw [h1] at h3
  have hout := Option.some_inj.mp h3
  exact (h2 16).2.2 ("2.1.0".toList) (by rw [hout]; decide)

/-! ### C1/C2/C4: branch inference engine — infrastructure -/

theorem split_unique {α : Type} {l p q p' q' : List α} {v : α} (hnd : l.Nodup)
    (h1 : l = p ++ v :: q) (h2 : l = p' ++ v :: q') : p = p' ∧ q = q' := by
  subst h1
  induction p generalizing p' with
  | nil =>
    cases p' with
    | nil =>
      have h2' : v :: q = v :: q' := h2
      injection h2' with _ h3
      exact ⟨rfl, h3⟩
    | cons x p₂ =>
      have h2' : v :: q = x :: (p₂ ++ v :: q') := h2
      injection h2' with hx h3
      subst hx
      exfalso
      simp only [List.nil_append, List.nodup_cons] at hnd
      exact hnd.1 (h3 ▸ List.mem_append.mpr (Or.inr (by simp)))
  | cons x p₂ ih =>
    cases p' with
    | nil =>
      have h2' : x :: (p₂ ++ v :: q) = v :: q' := h2
      injection h2' with hx h3
      subst hx
      exfalso
      simp only [List.cons_append, List.nodup_cons] at hnd
      exact hnd.1 (List.mem_append.mpr (Or.inr (by simp)))
    | cons y p₃ =>
      have h2' : x :: (p₂ ++ v :: q) = y :: (p₃ ++ v :: q') := h2
      injection h2' with hxy h3
      simp only [List.cons_append, List.nodup_cons] at hnd
      obtain ⟨hp, hq⟩ := ih hnd.2 h3
      exact ⟨by rw [hxy, hp], hq⟩

theorem alGet_map_svToStr (input : List (SemVer × Option SemVer)) (v : SemVer) :
    alGet (input.map fun p => (svToStr p.1, p.2)) (svToStr v) = alGet input v := by
  induction input with
  | nil => rfl
  | cons p rest ih =>
    obtain ⟨r, o⟩ := p
    by_cases hr : r = v
    · subst hr
      simp [alGet]
    · have hne : svToStr r ≠ svToStr v := fun hc => hr (svToStr_inj hc)
      simp [alGet, hr, hne, ih]

theorem buildByBranch_eq (input : List (SemVer × Option SemVer))
    (acc : List (Str × List SemVer)) :
    buildByBranch (input.map fun p => (svToStr p.1, p.2)) acc =
      some (input.foldl (fun a p => alPush a (shortBranchStr p.1) p.1) acc) := by
  induction input generalizing acc with
  | nil => rfl
  | cons p rest ih =>
    obtain ⟨r, o⟩ := p
    simp only [List.map_cons, buildByBranch, parse_svToStr, List.foldl_cons]
    exact ih _

theorem lastExpIn_init (E : SemVer → Option SemVer) (l : List SemVer)
    (init : Option SemVer) :
    l.foldl (fun c u => if (E u).isSome then some u else c) init =
      match lastExpIn E l with
      | some u => some u
      | none => init := by
  induction l generalizing init with
  | nil => rfl
  | cons u l ih =>
    have hcons : lastExpIn E (u :: l) =
        l.foldl (fun c x => if (E x).isSome then some x else c)
          (if (E u).isSome then some u else none) := rfl
    simp only [List.foldl_cons]
    rw [ih (if (E u).isSome then some u else init), hcons,
      ih (if (E u).isSome then some u else none)]
    by_cases hu : (E u).isSome
    · simp only [if_pos hu]
      cases lastExpIn E l <;> rfl
    · simp only [if_neg hu]
      cases lastExpIn E l <;> rfl

theorem lastExpIn_cons (E : SemVer → Option SemVer) (u : SemVer) (l : List SemVer) :
    lastExpIn E (u :: l) =
      match lastExpIn E l with
      | some x => some x
      | none => if (E u).isSome then some u else none := by
  have hcons : lastExpIn E (u :: l) =
      l.foldl (fun c x => if (E x).isSome then some x else c)
        (if (E u).isSome then some u else none) := rfl
  rw [hcons, lastExpIn_init]

theorem lastExpIn_mem {E : SemVer → Option SemVer} {l : List SemVer} {u : SemVer}
    (h : lastExpIn E l = some u) : u ∈ l ∧ (E u).isSome = true := by
  induction l with
  | nil => simp [lastExpIn] at h
  | cons x l ih =>
    rw [lastExpIn_cons] at h
    cases hl : lastExpIn E l with
    | some x₂ =>
      rw [hl] at h
      obtain rfl := Option.some_inj.mp h
      obtain ⟨h1, h2⟩ := ih hl
      exact ⟨by simp [h1], h2⟩
    | none =>
      rw [hl] at h
      by_cases hx : (E x).isSome
      · rw [if_pos hx] at h
        obtain rfl := Option.some_inj.mp h
        exact ⟨by simp, hx⟩
      · rw [if_neg hx] at h
        exact Option.noConfusion h

theorem lastExpIn_none {E : SemVer → Option SemVer} {l : List SemVer}
    (h : ∀ u ∈ l, E u = none) : lastExpIn E l = none := by
  induction l with
  | nil => rfl
  | cons x l ih =>
    rw [lastExpIn_cons, ih (fun u hu => h u (by simp [hu]))]
    rw [if_neg (by simp [h x (by simp)])]

theorem curAfter_spec (E : SemVer → Option SemVer) (l : List SemVer)
    (cv : Option SemVer) (ca : Option Str) :
    curAfter E l cv ca =
      match lastExpIn E l with
      | some u => (E u, some (svToStr u))
      | none => (cv, ca) := by
  induction l generalizing cv ca with
  | nil => rfl
  | cons u l ih =>
    have hstep : curAfter E (u :: l) cv ca =
        match E u with
        | some w => curAfter E l (some w) (some (svToStr u))
        | none => curAfter E l cv ca := by
      cases hu : E u <;> simp [curAfter, hu]
    rw [hstep, lastExpIn_cons]
    cases hu : E u with
    | some w =>
      dsimp only
      rw [ih (some w) (some (svToStr u))]
      cases hl : lastExpIn E l with
      | some x => rfl
      | none => simp [hu]
    | none =>
      dsimp only
      rw [ih cv ca]
      cases hl : lastExpIn E l with
      | some x => rfl
      | none => simp [hu]

theorem firstExpIn_none_iff (E : SemVer → Option SemVer) (l : List SemVer) :
    firstExpIn E l = none ↔ ∀ u ∈ l, E u = none := by
  induction l with
  | nil => simp [firstExpIn]
  | cons u l ih =>
    rw [firstExpIn]
    by_cases hu : (E u).isSome
    · rw [if_pos hu]
      simp only [Option.some_ne_none, false_iff]
      push_neg
      exact ⟨u, by simp, fun hc => by simp [hc] at hu⟩
    · rw [if_neg hu]
      constructor
      · intro h x hx
        rcases List.mem_cons.mp hx with rfl | hx2
        · exact Option.not_isSome_iff_eq_none.mp hu
        · refine ih.mp ?_ x hx2
          cases hfe : firstExpIn E l with
          | none => rfl
          | some p => rw [hfe] at h; simp at h
      · intro h
        rw [ih.mpr (fun x hx => h x (by simp [hx]))]
        rfl

theorem firstExpIn_some_split {E : SemVer → Option SemVer} {l : List SemVer}
    {j : Nat} {u : SemVer} (h : firstExpIn E l = some (j, u)) :
    ∃ p q, l = p ++ u :: q ∧ p.length = j ∧ (∀ x ∈ p, E x = none) ∧
      (E u).isSome = true := by
  induction l generalizing j with
  | nil => simp [firstExpIn] at h
  | cons x l ih =>
    rw [firstExpIn] at h
    by_cases hx : (E x).isSome
    · rw [if_pos hx] at h
      simp only [Option.some_inj, Prod.mk.injEq] at h
      obtain ⟨h1, h2⟩ := h
      subst h2
      exact ⟨[], l, rfl, by simp [h1], by simp, hx⟩
    · rw [if_neg hx] at h
      cases hfe : firstExpIn E l with
      | none => rw [hfe] at h; exact Option.noConfusion h
      | some p0 =>
        obtain ⟨j', u'⟩ := p0
        rw [hfe] at h
        simp only [Option.map_some', Option.some_inj, Prod.mk.injEq] at h
        obtain ⟨hj, hu⟩ := h
        subst hu
        obtain ⟨p, q, hl, hlen, hall, hsome⟩ := ih hfe
        refine ⟨x :: p, q, by rw [hl]; rfl, by simp [hlen, ← hj], ?_, hsome⟩
        intro y hy
        rcases List.mem_cons.mp hy with rfl | hy2
        · exact Option.not_isSome_iff_eq_none.mp hx
        · exact hall y hy2

theorem fwdStep_explicit (SE : List (Str × Option SemVer)) (st : FwdState)
    (idx : Nat) (v : SemVer) (w : SemVer)
    (he : (alGet SE (svToStr v)).bind id = some w) :
    fwdStep SE st idx v =
      { currentVersion := some w
        currentAnchor := some (svToStr v)
        firstKnownIndex :=
          if st.firstKnownIndex = none then some idx else st.firstKnownIndex
        firstKnownVersion :=
          if st.firstKnownIndex = none then some w else st.firstKnownVersion
        firstKnownAnchor :=
          if st.firstKnownIndex = none then some (svToStr v) else st.firstKnownAnchor
        assigned := alInsert st.assigned (svToStr v)
          ⟨some w, some (svToStr v), Mode.explicit⟩ } := by
  simp only [fwdStep]
  rw [he]

theorem fwdStep_noexp (SE : List (Str × Option SemVer)) (st : FwdState)
    (idx : Nat) (v : SemVer)
    (he : (alGet SE (svToStr v)).bind id = none) :
    fwdStep SE st idx v =
      match st.currentVersion with
      | some cv =>
        { st with assigned := (alInsert st.assigned (svToStr v)
            (⟨some cv, st.currentAnchor, Mode.forwardFill⟩ : Triple)) }
      | none =>
        { st with assigned := (alInsert st.assigned (svToStr v)
            (⟨none, none, Mode.unknown⟩ : Triple)) } := by
  simp only [fwdStep]
  rw [he]

theorem fwdStep_noexp_fields (SE : List (Str × Option SemVer)) (st : FwdState)
    (idx : Nat) (v : SemVer)
    (he : (alGet SE (svToStr v)).bind id = none) :
    (fwdStep SE st idx v).firstKnownIndex = st.firstKnownIndex ∧
    (fwdStep SE st idx v).firstKnownVersion = st.firstKnownVersion ∧
    (fwdStep SE st idx v).firstKnownAnchor = st.firstKnownAnchor ∧
    (fwdStep SE st idx v).currentVersion = st.currentVersion ∧
    (fwdStep SE st idx v).currentAnchor = st.currentAnchor := by
  rw [fwdStep_noexp _ _ _ _ he]
  cases hcv : st.currentVersion <;> exact ⟨rfl, rfl, rfl, rfl, rfl⟩

theorem fwdStep_noexp_assigned (SE : List (Str × Option SemVer)) (st : FwdState)
    (idx : Nat) (v : SemVer)
    (he : (alGet SE (svToStr v)).bind id = none) :
    (fwdStep SE st idx v).assigned = alInsert st.assigned (svToStr v)
      (match st.currentVersion with
       | some cv => ⟨some cv, st.currentAnchor, Mode.forwardFill⟩
       | none => ⟨none, none, Mode.unknown⟩) := by
  rw [fwdStep_noexp _ _ _ _ he]
  cases hcv : st.currentVersion <;> rfl

theorem fwdStep_assigned (SE : List (Str × Option SemVer)) (st : FwdState)
    (idx : Nat) (v : SemVer) :
    ∃ t, (fwdStep SE st idx v).assigned = alInsert st.assigned (svToStr v) t := by
  rcases he : (alGet SE (svToStr v)).bind id with _ | w
  · exact ⟨_, fwdStep_noexp_assigned _ _ _ _ he⟩
  · exact ⟨_, by rw [fwdStep_explicit _ _ _ _ _ he]⟩

theorem fwdLoop_frame (SE : List (Str × Option SemVer)) (rest : List SemVer)
    (k : Str) (hk : k ∉ rest.map svToStr) :
    ∀ (idx : Nat) (st : FwdState),
      alGet (fwdLoop SE rest idx st).assigned k = alGet st.assigned k := by
  induction rest with
  | nil => intro idx st; rfl
  | cons v rest ih =>
    intro idx st
    simp only [List.map_cons, List.mem_cons] at hk
    push_neg at hk
    have h1 : fwdLoop SE (v :: rest) idx st =
        fwdLoop SE rest (idx + 1) (fwdStep SE st idx v) := rfl
    rw [h1, ih hk.2]
    obtain ⟨t, ht⟩ := fwdStep_assigned SE st idx v
    rw [ht, alGet_alInsert_ne _ _ _ _ (Ne.symm hk.1)]

theorem fwdLoop_member (SE : List (Str × Option SemVer)) (p : List SemVer)
    (v : SemVer) (q : List SemVer) (hq : svToStr v ∉ q.map svToStr) :
    ∀ (idx : Nat) (st : FwdState),
      alGet (fwdLoop SE (p ++ v :: q) idx st).assigned (svToStr v) =
        some (match (alGet SE (svToStr v)).bind id with
          | some w => ⟨some w, some (svToStr v), Mode.explicit⟩
          | none =>
            match curAfter (fun u => (alGet SE (svToStr u)).bind id) p
                st.currentVersion st.currentAnchor with
            | (some w, a) => ⟨some w, a, Mode.forwardFill⟩
            | (none, _) => ⟨none, none, Mode.unknown⟩) := by
  induction p with
  | nil =>
    intro idx st
    simp only [List.nil_append]
    have h1 : fwdLoop SE (v :: q) idx st =
        fwdLoop SE q (idx + 1) (fwdStep SE st idx v) := rfl
    rw [h1, fwdLoop_frame SE q _ hq]
    rcases he : (alGet SE (svToStr v)).bind id with _ | w
    · rw [fwdStep_noexp_assigned _ _ _ _ he, alGet_alInsert_self]
      cases hcv : st.currentVersion <;> rfl
    · rw [fwdStep_explicit _ _ _ _ _ he]
      dsimp only
      rw [alGet_alInsert_self]
  | cons u p ih =>
    intro idx st
    have h1 : fwdLoop SE ((u :: p) ++ v :: q) idx st =
        fwdLoop SE (p ++ v :: q) (idx + 1) (fwdStep SE st idx u) := rfl
    rw [h1, ih (idx + 1) (fwdStep SE st idx u)]
    have hcur : curAfter (fun x => (alGet SE (svToStr x)).bind id) p
        (fwdStep SE st idx u).currentVersion (fwdStep SE st idx u).currentAnchor =
        curAfter (fun x => (alGet SE (svToStr x)).bind id) (u :: p)
          st.currentVersion st.currentAnchor := by
      rcases he : (alGet SE (svToStr u)).bind id with _ | w
      · obtain ⟨_, _, _, h4, h5⟩ := fwdStep_noexp_fields SE st idx u he
        rw [h4, h5, curAfter_spec, curAfter_spec, lastExpIn_cons]
        rw [if_neg (show ¬ ((fun x => (alGet SE (svToStr x)).bind id) u).isSome = true
          from by rw [show ((fun x => (alGet SE (svToStr x)).bind id) u) = none from he]
                  simp)]
        cases hl : lastExpIn (fun x => (alGet SE (svToStr x)).bind id) p <;> rfl
      · rw [fwdStep_explicit _ _ _ _ _ he]
        dsimp only
        rw [curAfter_spec, curAfter_spec, lastExpIn_cons]
        rw [if_pos (show ((fun x => (alGet SE (svToStr x)).bind id) u).isSome = true
          from by rw [show ((fun x => (alGet SE (svToStr x)).bind id) u) = some w from he]
                  rfl)]
        cases hl : lastExpIn (fun x => (alGet SE (svToStr x)).bind id) p with
        | some x => rfl
        | none =>
          dsimp only
          rw [he]
    rw [hcur]

theorem fwdLoop_fk_set (SE : List (Str × Option SemVer)) (rest : List SemVer) :
    ∀ (idx : Nat) (st : FwdState), st.firstKnownIndex ≠ none →
      (fwdLoop SE rest idx st).firstKnownIndex = st.firstKnownIndex ∧
      (fwdLoop SE rest idx st).firstKnownVersion = st.firstKnownVersion ∧
      (fwdLoop SE rest idx st).firstKnownAnchor = st.firstKnownAnchor := by
  induction rest with
  | nil => exact fun idx st _ => ⟨rfl, rfl, rfl⟩
  | cons v rest ih =>
    intro idx st hk
    have h1 : fwdLoop SE (v :: rest) idx st =
        fwdLoop SE rest (idx + 1) (fwdStep SE st idx v) := rfl
    rw [h1]
    rcases he : (alGet SE (svToStr v)).bind id with _ | w
    · obtain ⟨h2, h3, h4, _, _⟩ := fwdStep_noexp_fields SE st idx v he
      obtain ⟨i1, i2, i3⟩ := ih (idx + 1) (fwdStep SE st idx v) (by rw [h2]; exact hk)
      exact ⟨by rw [i1, h2], by rw [i2, h3], by rw [i3, h4]⟩
    · have hfields : (fwdStep SE st idx v).firstKnownIndex = st.firstKnownIndex ∧
          (fwdStep SE st idx v).firstKnownVersion = st.firstKnownVersion ∧
          (fwdStep SE st idx v).firstKnownAnchor = st.firstKnownAnchor := by
        rw [fwdStep_explicit _ _ _ _ _ he]
        exact ⟨by simp [if_neg hk], by simp [if_neg hk], by simp [if_neg hk]⟩
      obtain ⟨h2, h3, h4⟩ := hfields
      obtain ⟨i1, i2, i3⟩ := ih (idx + 1) (fwdStep SE st idx v) (by rw [h2]; exact hk)
      exact ⟨by rw [i1, h2], by rw [i2, h3], by rw [i3, h4]⟩

theorem fwdLoop_fk_none (SE : List (Str × Option SemVer)) (rest : List SemVer) :
    ∀ (idx : Nat) (st : FwdState), st.firstKnownIndex = none →
      (match firstExpIn (fun u => (alGet SE (svToStr u)).bind id) rest with
       | some (j, u) =>
           (fwdLoop SE rest idx st).firstKnownIndex = some (idx + j) ∧
           (fwdLoop SE rest idx st).firstKnownVersion =
             (alGet SE (svToStr u)).bind id ∧
           (fwdLoop SE rest idx st).firstKnownAnchor = some (svToStr u)
       | none => (fwdLoop SE rest idx st).firstKnownIndex = none) := by
  induction rest with
  | nil =>
    intro idx st h0
    simp only [firstExpIn]
    exact h0
  | cons v rest ih =>
    intro idx st h0
    have h1 : fwdLoop SE (v :: rest) idx st =
        fwdLoop SE rest (idx + 1) (fwdStep SE st idx v) := rfl
    rcases he : (alGet SE (svToStr v)).bind id with _ | w
    · have hfe : firstExpIn (fun u => (alGet SE (svToStr u)).bind id) (v :: rest) =
          (firstExpIn (fun u => (alGet SE (svToStr u)).bind id) rest).map
            (fun p => (p.1 + 1, p.2)) := by
        rw [firstExpIn, if_neg (show
          ¬ ((fun u => (alGet SE (svToStr u)).bind id) v).isSome = true from by
            rw [show ((fun u => (alGet SE (svToStr u)).bind id) v) = none from he]
            simp)]
      obtain ⟨h2, _, _, _, _⟩ := fwdStep_noexp_fields SE st idx v he
      have ih2 := ih (idx + 1) (fwdStep SE st idx v) (by rw [h2]; exact h0)
      rw [hfe, h1]
      cases hfe2 : firstExpIn (fun u => (alGet SE (svToStr u)).bind id) rest with
      | none =>
        rw [hfe2] at ih2
        simpa using ih2
      | some ju =>
        obtain ⟨j, u⟩ := ju
        rw [hfe2] at ih2
        simp only [Option.map_some']
        refine ⟨?_, ih2.2.1, ih2.2.2⟩
        rw [ih2.1]
        congr 1
        omega
    · have hfe : firstExpIn (fun u => (alGet SE (svToStr u)).bind id) (v :: rest) =
          some (0, v) := by
        rw [firstExpIn, if_pos (show
          ((fun u => (alGet SE (svToStr u)).bind id) v).isSome = true from by
            rw [show ((fun u => (alGet SE (svToStr u)).bind id) v) = some w from he]
            rfl)]
      have hfields : (fwdStep SE st idx v).firstKnownIndex = some idx ∧
          (fwdStep SE st idx v).firstKnownVersion = some w ∧
          (fwdStep SE st idx v).firstKnownAnchor = some (svToStr v) := by
        rw [fwdStep_explicit _ _ _ _ _ he]
        exact ⟨by simp [if_pos h0], by simp [if_pos h0], by simp [if_pos h0]⟩
      obtain ⟨h2, h3, h4⟩ := hfields
      obtain ⟨i1, i2, i3⟩ := fwdLoop_fk_set SE rest (idx + 1) (fwdStep SE st idx v)
        (by rw [h2]; exact Option.some_ne_none idx)
      rw [hfe, h1]
      refine ⟨?_, ?_, ?_⟩
      · rw [i1, h2, Nat.add_zero]
      · rw [i2, h3, he]
      · rw [i3, h4]

theorem fwdLoop_keys (SE : List (Str × Option SemVer)) (rest : List SemVer) :
    ∀ (idx : Nat) (st : FwdState), (rest.map svToStr).Nodup →
      (∀ v ∈ rest, svToStr v ∉ st.assigned.map Prod.fst) →
      (fwdLoop SE rest idx st).assigned.map Prod.fst =
        st.assigned.map Prod.fst ++ rest.map svToStr := by
  induction rest with
  | nil =>
    intro idx st _ _
    rw [show fwdLoop SE [] idx st = st from rfl]
    simp
  | cons v rest ih =>
    intro idx st hnd hfresh
    simp only [List.map_cons, List.nodup_cons] at hnd
    obtain ⟨t, ht⟩ := fwdStep_assigned SE st idx v
    have h1 : fwdLoop SE (v :: rest) idx st =
        fwdLoop SE rest (idx + 1) (fwdStep SE st idx v) := rfl
    rw [h1, ih (idx + 1) _ hnd.2 ?_]
    · rw [ht, alInsert_keys_of_not_mem _ _ _ (hfresh v (by simp))]
      simp
    · intro u hu
      rw [ht, alInsert_keys_of_not_mem _ _ _ (hfresh v (by simp))]
      simp only [List.mem_append, List.mem_singleton]
      push_neg
      refine ⟨hfresh u (by simp [hu]), ?_⟩
      intro hc
      exact hnd.1 (hc ▸ List.mem_map_of_mem svToStr hu)

theorem foldl_alInsert_const {κ α β : Type} [DecidableEq κ] (xs : List β)
    (key : β → κ) (t : α) (acc : List (κ × α)) (k : κ) :
    (k ∈ xs.map key →
      alGet (xs.foldl (fun a x => alInsert a (key x) t) acc) k = some t) ∧
    (k ∉ xs.map key →
      alGet (xs.foldl (fun a x => alInsert a (key x) t) acc) k = alGet acc k) := by
  induction xs generalizing acc with
  | nil => exact ⟨by simp, fun _ => rfl⟩
  | cons x xs ih =>
    constructor
    · intro hk
      simp only [List.map_cons, List.mem_cons] at hk
      by_cases hx : k ∈ xs.map key
      · exact (ih _).1 hx
      · rcases hk with rfl | hk2
        · rw [List.foldl_cons, (ih _).2 hx, alGet_alInsert_self]
        · exact absurd hk2 hx
    · intro hk
      simp only [List.map_cons, List.mem_cons] at hk
      push_neg at hk
      rw [List.foldl_cons, (ih _).2 hk.2, alGet_alInsert_ne _ _ _ _ (Ne.symm hk.1)]

theorem foldl_alInsert_const_keys {κ α β : Type} [DecidableEq κ] (xs : List β)
    (key : β → κ) (t : α) (acc : List (κ × α))
    (h : ∀ x ∈ xs, key x ∈ acc.map Prod.fst) :
    (xs.foldl (fun a x => alInsert a (key x) t) acc).map Prod.fst =
      acc.map Prod.fst := by
  induction xs generalizing acc with
  | nil => rfl
  | cons x xs ih =>
    rw [List.foldl_cons, ih _ ?_]
    · exact alInsert_keys_of_mem _ _ _ (h x (by simp))
    · intro y hy
      rw [alInsert_keys_of_mem _ _ _ (h x (by simp))]
      exact h y (by simp [hy])

theorem collectOut_spec (s : List SemVer) (assigned : List (Str × Triple)) :
    ∀ (out : List (Str × Triple)),
      (∀ v ∈ s, (alGet assigned (svToStr v)).isSome = true) →
      (s.map svToStr).Nodup →
      (∀ v ∈ s, svToStr v ∉ out.map Prod.fst) →
      ∃ res, collectOut s assigned out = some res ∧
        res.map Prod.fst = out.map Prod.fst ++ s.map svToStr ∧
        (∀ v ∈ s, alGet res (svToStr v) = alGet assigned (svToStr v)) ∧
        (∀ k, k ∉ s.map svToStr → alGet res k = alGet out k) := by
  induction s with
  | nil => exact fun out _ _ _ => ⟨out, rfl, by simp, by simp, fun k _ => rfl⟩
  | cons v s ih =>
    intro out hpres hnd hfresh
    simp only [List.map_cons, List.nodup_cons] at hnd
    obtain ⟨t, ht⟩ := Option.isSome_iff_exists.mp (hpres v (by simp))
    have hkeys : (alInsert out (svToStr v) t).map Prod.fst =
        out.map Prod.fst ++ [svToStr v] :=
      alInsert_keys_of_not_mem _ _ _ (hfresh v (by simp))
    have hfresh2 : ∀ u ∈ s, svToStr u ∉ (alInsert out (svToStr v) t).map Prod.fst := by
      intro u hu
      rw [hkeys]
      simp only [List.mem_append, List.mem_singleton]
      push_neg
      refine ⟨hfresh u (by simp [hu]), ?_⟩
      intro hc
      exact hnd.1 (hc ▸ List.mem_map_of_mem svToStr hu)
    obtain ⟨res, hres, hk, hmem, hframe⟩ := ih (alInsert out (svToStr v) t)
      (fun u hu => hpres u (by simp [hu])) hnd.2 hfresh2
    refine ⟨res, ?_, ?_, ?_, ?_⟩
    · simp only [collectOut, ht]
      exact hres
    · rw [hk, hkeys]
      simp
    · intro u hu
      rcases List.mem_cons.mp hu with rfl | hu2
      · rw [hframe _ hnd.1, alGet_alInsert_self, ht]
      · exact hmem u hu2
    · intro k hkk
      simp only [List.map_cons, List.mem_cons] at hkk
      push_neg at hkk
      rw [hframe k hkk.2]
      exact alGet_alInsert_ne _ _ _ _ (Ne.symm hkk.1)

theorem nodup_split_parts {s p q : List SemVer} {v : SemVer}
    (hnd : (s.map svToStr).Nodup) (hsplit : s = p ++ v :: q) :
    svToStr v ∉ p.map svToStr ∧ svToStr v ∉ q.map svToStr := by
  rw [hsplit] at hnd
  simp only [List.map_append, List.map_cons, List.nodup_append, List.nodup_cons] at hnd
  obtain ⟨h1, ⟨h2, h3⟩, h4⟩ := hnd
  constructor
  · intro hc
    exact h4 hc (by simp)
  · exact h2

theorem processBranch_spec (SE : List (Str × Option SemVer)) (vs : List SemVer)
    (out : List (Str × Triple))
    (hnd : ((List.insertionSort patchLe vs).map svToStr).Nodup)
    (hfresh : ∀ v ∈ List.insertionSort patchLe vs, svToStr v ∉ out.map Prod.fst) :
    ∃ res, processBranch SE vs out = some res ∧
      res.map Prod.fst =
        out.map Prod.fst ++ (List.insertionSort patchLe vs).map svToStr ∧
      (∀ k, k ∉ (List.insertionSort patchLe vs).map svToStr →
        alGet res k = alGet out k) ∧
      (∀ p v q, List.insertionSort patchLe vs = p ++ v :: q →
        alGet res (svToStr v) =
          some (branchResult (fun u => (alGet SE (svToStr u)).bind id)
            (List.insertionSort patchLe vs) p v)) := by
  set s := List.insertionSort patchLe vs with hs
  set st0 : FwdState := ⟨none, none, none, none, none, []⟩ with hst0
  set stF := fwdLoop SE s 0 st0 with hstF
  have hkeysF : stF.assigned.map Prod.fst = s.map svToStr := by
    rw [hstF]
    have h := fwdLoop_keys SE s 0 st0 hnd (by intro v _; rw [hst0]; simp)
    rw [hst0] at h
    simpa using h
  have hmemF : ∀ p v q, s = p ++ v :: q →
      alGet stF.assigned (svToStr v) =
        some (match (alGet SE (svToStr v)).bind id with
          | some w => ⟨some w, some (svToStr v), Mode.explicit⟩
          | none =>
            match curAfter (fun u => (alGet SE (svToStr u)).bind id) p none none with
            | (some w, a) => ⟨some w, a, Mode.forwardFill⟩
            | (none, _) => ⟨none, none, Mode.unknown⟩) := by
    intro p v q hsplit
    have hq := (nodup_split_parts hnd hsplit).2
    rw [hstF, hsplit]
    exact fwdLoop_member SE p v q hq 0 st0
  have hpb : processBranch SE vs out =
      collectOut s
        (match stF.firstKnownIndex, stF.firstKnownVersion with
         | some k, some fv => backFill s k fv stF.firstKnownAnchor stF.assigned
         | _, _ => stF.assigned) out := rfl
  have hfk := fwdLoop_fk_none SE s 0 st0 (by rw [hst0])
  cases hfe : firstExpIn (fun u => (alGet SE (svToStr u)).bind id) s with
  | none =>
    rw [hfe] at hfk
    -- hfk : stF.firstKnownIndex = none
    have hassigned : (match stF.firstKnownIndex, stF.firstKnownVersion with
        | some k, some fv => backFill s k fv stF.firstKnownAnchor stF.assigned
        | _, _ => stF.assigned) = stF.assigned := by
      rw [show stF.firstKnownIndex = none from hfk]
    have hvals : ∀ p v q, s = p ++ v :: q →
        alGet stF.assigned (svToStr v) =
          some (branchResult (fun u => (alGet SE (svToStr u)).bind id) s p v) := by
      intro p v q hsplit
      rw [hmemF p v q hsplit]
      have hallnone := (firstExpIn_none_iff
        (fun u => (alGet SE (svToStr u)).bind id) s).mp hfe
      rcases hev : (alGet SE (svToStr v)).bind id with _ | w
      · have hlast : lastExpIn (fun u => (alGet SE (svToStr u)).bind id) p = none := by
          apply lastExpIn_none
          intro x hx
          exact hallnone x (by rw [hsplit]; exact List.mem_append.mpr (Or.inl hx))
        rw [curAfter_spec, hlast]
        simp only [branchResult, hev, hfe]
      · exact absurd (hallnone v (by rw [hsplit]; simp)) (by rw [hev]; simp)
    have hpres : ∀ v ∈ s, (alGet stF.assigned (svToStr v)).isSome = true := by
      intro v hv
      exact alGet_isSome_of_mem (by rw [hkeysF]; exact List.mem_map_of_mem svToStr hv)
    obtain ⟨res, hres, hk, hmem, hframe⟩ :=
      collectOut_spec s stF.assigned out hpres hnd hfresh
    refine ⟨res, ?_, hk, hframe, ?_⟩
    · rw [hpb, hassigned]
      exact hres
    · intro p v q hsplit
      rw [hmem v (by rw [hsplit]; simp), hvals p v q hsplit]
  | some ju =>
    obtain ⟨j, u⟩ := ju
    rw [hfe] at hfk
    obtain ⟨hfki, hfkv, hfka⟩ := hfk
    rw [Nat.zero_add] at hfki
    obtain ⟨p₀, q₀, hsplit0, hlen0, hall0, hsome0⟩ := firstExpIn_some_split hfe
    obtain ⟨w, hw⟩ := Option.isSome_iff_exists.mp hsome0
    rw [hw] at hfkv
    have hassigned : (match stF.firstKnownIndex, stF.firstKnownVersion with
        | some k, some fv => backFill s k fv stF.firstKnownAnchor stF.assigned
        | _, _ => stF.assigned) =
        backFill s j w stF.firstKnownAnchor stF.assigned := by
      rw [show stF.firstKnownIndex = some j from hfki,
        show stF.firstKnownVersion = some w from hfkv]
    have htake : s.take j = p₀ := by
      rw [hsplit0, ← hlen0]
      exact List.take_left p₀ (u :: q₀)
    have hkeys2 : (backFill s j w stF.firstKnownAnchor stF.assigned).map Prod.fst =
        s.map svToStr := by
      rw [backFill]
      rw [foldl_alInsert_const_keys]
      · exact hkeysF
      · intro x hx
        rw [hkeysF]
        exact List.mem_map_of_mem svToStr (List.take_subset j s hx)
    have hvals : ∀ p v q, s = p ++ v :: q →
        alGet (backFill s j w stF.firstKnownAnchor stF.assigned) (svToStr v) =
          some (branchResult (fun u => (alGet SE (svToStr u)).bind id) s p v) := by
      intro p v q hsplit
      by_cases hlt : p.length < j
      · -- v lies before the first explicit member: backfilled
        have hvp0 : v ∈ p₀ := by
          have h1 : s.take j = p ++ (v :: q).take (j - p.length) := by
            rw [hsplit, List.take_append_eq_append_take,
              List.take_of_length_le (by omega)]
          have h2 : (v :: q).take (j - p.length) = v :: q.take (j - p.length - 1) := by
            rw [List.take_cons (by omega)]
          rw [← htake, h1, h2]
          simp
        have hmemtake : svToStr v ∈ (s.take j).map svToStr := by
          rw [htake]
          exact List.mem_map_of_mem svToStr hvp0
        rw [backFill,
          (foldl_alInsert_const (s.take j) svToStr
            ⟨some w, stF.firstKnownAnchor, Mode.backwardFill⟩ stF.assigned
            (svToStr v)).1 hmemtake]
        have hev : (alGet SE (svToStr v)).bind id = none := hall0 v hvp0
        simp only [branchResult, hev, hfe, if_pos hlt]
        rw [hw, hfka]
      · -- v is at or after the first explicit member: forward value kept
        have hnotmem : svToStr v ∉ (s.take j).map svToStr := by
          have hsub : s.take j = p.take j := by
            rw [hsplit, List.take_append_eq_append_take,
              Nat.sub_eq_zero_of_le (by omega), List.take_zero, List.append_nil]
          rw [hsub]
          intro hc
          rcases List.mem_map.mp hc with ⟨x, hx, hxx⟩
          have : x ∈ p := List.take_subset j p hx
          exact (nodup_split_parts hnd hsplit).1
            (hxx ▸ List.mem_map_of_mem svToStr this)
        rw [backFill,
          (foldl_alInsert_const (s.take j) svToStr
            ⟨some w, stF.firstKnownAnchor, Mode.backwardFill⟩ stF.assigned
            (svToStr v)).2 hnotmem]
      
        rw [hmemF p v q hsplit]
        rcases hev : (alGet SE (svToStr v)).bind id with _ | w2
        · -- forward fill from within p (the first explicit is in p)
          simp only [branchResult, hev, hfe, if_neg hlt]
        · simp only [branchResult, hev]
    have hpres : ∀ v ∈ s,
        (alGet (backFill s j w stF.firstKnownAnchor stF.assigned)
          (svToStr v)).isSome = true := by
      intro v hv
      exact alGet_isSome_of_mem (by rw [hkeys2]; exact List.mem_map_of_mem svToStr hv)
    obtain ⟨res, hres, hk, hmem, hframe⟩ :=
      collectOut_spec s (backFill s j w stF.firstKnownAnchor stF.assigned) out
        hpres hnd hfresh
    refine ⟨res, ?_, hk, hframe, ?_⟩
    · rw [hpb, hassigned]
      exact hres
    · intro p v q hsplit
      rw [hmem v (by rw [hsplit]; simp), hvals p v q hsplit]

theorem branchesLoop_spec (SE : List (Str × Option SemVer)) :
    ∀ (buckets : List (Str × List SemVer)) (out : List (Str × Triple)),
      (∀ b l, (b, l) ∈ buckets → ((List.insertionSort patchLe l).map svToStr).Nodup) →
      (∀ b l, (b, l) ∈ buckets → ∀ v ∈ l, shortBranchStr v = b) →
      (buckets.map Prod.fst).Nodup →
      (∀ b l, (b, l) ∈ buckets → ∀ v ∈ l, svToStr v ∉ out.map Prod.fst) →
      (out.map Prod.fst).Nodup →
      ∃ res, branchesLoop SE buckets out = some res ∧
        (res.map Prod.fst).Nodup ∧
        (∀ k, k ∈ res.map Prod.fst ↔ k ∈ out.map Prod.fst ∨
          ∃ b l, (b, l) ∈ buckets ∧ ∃ v ∈ l, k = svToStr v) ∧
        (∀ k, (∀ b l, (b, l) ∈ buckets → ∀ v ∈ l, k ≠ svToStr v) →
          alGet res k = alGet out k) ∧
        (∀ b l, (b, l) ∈ buckets → ∀ p v q,
          List.insertionSort patchLe l = p ++ v :: q →
          alGet res (svToStr v) =
            some (branchResult (fun u => (alGet SE (svToStr u)).bind id)
              (List.insertionSort patchLe l) p v)) := by
  intro buckets
  induction buckets with
  | nil =>
    intro out _ _ _ _ houtnd2
    refine ⟨out, rfl, houtnd2, ?_, ?_, ?_⟩
    · intro k
      constructor
      · exact fun h => Or.inl h
      · rintro (h | ⟨b, l, hbl, h2⟩)
        · exact h
        · exact absurd hbl (List.not_mem_nil _)
    · intro k _
      rfl
    · intro b l h
      simp at h
  | cons bk rest ih =>
    obtain ⟨b, l⟩ := bk
    intro out hbnd hbbr hbkeys hout houtnd
    simp only [List.map_cons, List.nodup_cons] at hbkeys
    have hsortmem : ∀ v ∈ List.insertionSort patchLe l, v ∈ l := fun v hv =>
      (List.perm_insertionSort patchLe l).mem_iff.mp hv
    obtain ⟨out2, hout2, hkeys2, hframe2, hvals2⟩ :=
      processBranch_spec SE l out (hbnd b l (by simp))
        (fun v hv => hout b l (by simp) v (hsortmem v hv))
    have hdisj : ∀ b' l', (b', l') ∈ rest → ∀ v' ∈ l', ∀ x ∈ l,
        svToStr v' ≠ svToStr x := by
      intro b' l' hbl' v' hv' x hx hc
      have hvx : v' = x := svToStr_inj hc
      have h1 : shortBranchStr x = b := hbbr b l (by simp) x hx
      have h2 : shortBranchStr v' = b' := hbbr b' l' (by simp [hbl']) v' hv'
      apply hbkeys.1
      rw [← h1, ← hvx, h2]
      exact List.mem_map_of_mem Prod.fst hbl'
    have hout2fresh : ∀ b' l', (b', l') ∈ rest → ∀ v' ∈ l',
        svToStr v' ∉ out2.map Prod.fst := by
      intro b' l' hbl' v' hv'
      rw [hkeys2]
      simp only [List.mem_append]
      push_neg
      refine ⟨hout b' l' (by simp [hbl']) v' hv', ?_⟩
      intro hc
      rcases List.mem_map.mp hc with ⟨x, hx, hxx⟩
      exact hdisj b' l' hbl' v' hv' x (hsortmem x hx) hxx.symm
    have hout2nd : (out2.map Prod.fst).Nodup := by
      rw [hkeys2, List.nodup_append]
      refine ⟨houtnd, hbnd b l (by simp), ?_⟩
      intro a ha hc
      rcases List.mem_map.mp hc with ⟨x, hx, hxx⟩
      exact hout b l (by simp) x (hsortmem x hx) (hxx ▸ ha)
    obtain ⟨res, hres, hresnd, hkeys3, hframe3, hvals3⟩ := ih out2
      (fun b' l' h => hbnd b' l' (by simp [h]))
      (fun b' l' h => hbbr b' l' (by simp [h]))
      hbkeys.2 hout2fresh hout2nd
    refine ⟨res, ?_, hresnd, ?_, ?_, ?_⟩
    · simp only [branchesLoop, hout2]
      exact hres
    · intro k
      rw [hkeys3 k, hkeys2]
      simp only [List.mem_append]
      constructor
      · rintro ((hk | hk) | ⟨b', l', hbl', v', hv', rfl⟩)
        · exact Or.inl hk
        · rcases List.mem_map.mp hk with ⟨x, hx, rfl⟩
          exact Or.inr ⟨b, l, by simp, x, hsortmem x hx, rfl⟩
        · exact Or.inr ⟨b', l', by simp [hbl'], v', hv', rfl⟩
      · rintro (hk | ⟨b', l', hbl', v', hv', rfl⟩)
        · exact Or.inl (Or.inl hk)
        · rcases List.mem_cons.mp hbl' with heq | hbl2
          · injection heq with hb hl
            subst hb
            subst hl
            refine Or.inl (Or.inr ?_)
            exact List.mem_map_of_mem svToStr
              ((List.perm_insertionSort patchLe l').mem_iff.mpr hv')
          · exact Or.inr ⟨b', l', hbl2, v', hv', rfl⟩
    · intro k hk
      rw [hframe3 k (fun b' l' h v' hv' => hk b' l' (by simp [h]) v' hv')]
      apply hframe2 k
      intro hc
      rcases List.mem_map.mp hc with ⟨x, hx, rfl⟩
      exact hk b l (by simp) x (hsortmem x hx) rfl
    · intro b' l' hbl' p v q hsplit
      rcases List.mem_cons.mp hbl' with heq | hbl2
      · injection heq with hb hl
        subst hb
        subst hl
        rw [hframe3 (svToStr v) ?_]
        · exact hvals2 p v q hsplit
        · intro b2 l2 hbl2 v2 hv2 hc
          have hvl : v ∈ l' := hsortmem v (by rw [hsplit]; simp)
          exact hdisj b2 l2 hbl2 v2 hv2 v hvl hc.symm
      · exact hvals3 b' l' hbl2 p v q hsplit

theorem filter_map_fst (input : List (SemVer × Option SemVer)) (b : Str) :
    (input.map Prod.fst).filter (fun u => decide (shortBranchStr u = b)) =
      (input.filter (fun p => decide (shortBranchStr p.1 = b))).map Prod.fst := by
  induction input with
  | nil => rfl
  | cons p rest ih =>
    simp only [List.map_cons, List.filter_cons]
    by_cases h : shortBranchStr p.1 = b
    · simp [h, ih]
    · simp [h, ih]

theorem inferBranchVersions_spec (input : List (SemVer × Option SemVer))
    (hnd : (input.map (fun p => svToStr p.1)).Nodup) :
    ∃ res,
      inferBranchVersions (input.map fun p => (svToStr p.1, p.2)) = some res ∧
      (res.map Prod.fst).Nodup ∧
      (∀ k, k ∈ res.map Prod.fst ↔ ∃ p ∈ input, k = svToStr p.1) ∧
      (∀ v ∈ input.map Prod.fst, ∀ p q,
        List.insertionSort patchLe (branchMembers (input.map Prod.fst) v) =
          p ++ v :: q →
        alGet res (svToStr v) =
          some (branchResult (fun u => (alGet input u).bind id)
            (List.insertionSort patchLe (branchMembers (input.map Prod.fst) v))
            p v)) := by
  have hEeq :
      (fun u => (alGet (input.map fun p => (svToStr p.1, p.2)) (svToStr u)).bind id) =
        (fun u => (alGet input u).bind id) :=
    funext fun u => by rw [alGet_map_svToStr]
  have hbknd :
      ((input.foldl (fun a p => alPush a (shortBranchStr p.1) p.1) []).map
        Prod.fst).Nodup :=
    foldl_alPush_keys_nodup input _ _ [] (by simp)
  have hget : ∀ b,
      alGet (input.foldl (fun a p => alPush a (shortBranchStr p.1) p.1) []) b =
        if (input.filter (fun p => decide (shortBranchStr p.1 = b))).isEmpty then none
        else some ((input.filter (fun p => decide (shortBranchStr p.1 = b))).map
          Prod.fst) := by
    intro b
    rw [foldl_alPush_get input (fun p => shortBranchStr p.1) Prod.fst [] b]
    rfl
  have hmem_of : ∀ b l,
      (b, l) ∈ input.foldl (fun a p => alPush a (shortBranchStr p.1) p.1) [] →
        l = (input.filter (fun p => decide (shortBranchStr p.1 = b))).map Prod.fst := by
    intro b l hbl
    have hg := alGet_of_mem_nodup hbknd hbl
    rw [hget b] at hg
    by_cases he : (input.filter (fun p => decide (shortBranchStr p.1 = b))).isEmpty
    · rw [if_pos he] at hg
      exact absurd hg (by simp)
    · rw [if_neg he] at hg
      exact (Option.some_inj.mp hg).symm
  have hsubnd : ∀ b,
      (((input.filter (fun p => decide (shortBranchStr p.1 = b))).map Prod.fst).map
        svToStr).Nodup := by
    intro b
    have hsl := (List.filter_sublist
      (p := fun p => decide (shortBranchStr p.1 = b)) input).map
        (fun p => svToStr p.1)
    have h2 := hnd.sublist hsl
    simpa [List.map_map, Function.comp] using h2
  have hbnd : ∀ b l,
      (b, l) ∈ input.foldl (fun a p => alPush a (shortBranchStr p.1) p.1) [] →
        ((List.insertionSort patchLe l).map svToStr).Nodup := by
    intro b l hbl
    rw [hmem_of b l hbl]
    exact ((List.perm_insertionSort patchLe _).map svToStr).nodup_iff.mpr (hsubnd b)
  have hbbr : ∀ b l,
      (b, l) ∈ input.foldl (fun a p => alPush a (shortBranchStr p.1) p.1) [] →
        ∀ v ∈ l, shortBranchStr v = b := by
    intro b l hbl v hv
    rw [hmem_of b l hbl] at hv
    rcases List.mem_map.mp hv with ⟨p, hp, rfl⟩
    exact of_decide_eq_true (List.mem_filter.mp hp).2
  obtain ⟨res, hres, hresnd, hkeys, hframe, hvals⟩ :=
    branchesLoop_spec (input.map fun p => (svToStr p.1, p.2))
      (input.foldl (fun a p => alPush a (shortBranchStr p.1) p.1) []) []
      hbnd hbbr hbknd (by simp) (by simp)
  have hbucket_mem : ∀ v ∈ input.map Prod.fst,
      (shortBranchStr v,
        (input.filter
          (fun p => decide (shortBranchStr p.1 = shortBranchStr v))).map Prod.fst) ∈
        input.foldl (fun a p => alPush a (shortBranchStr p.1) p.1) [] := by
    intro v hv
    rcases List.mem_map.mp hv with ⟨p0, hp0, rfl⟩
    apply alGet_mem
    rw [hget (shortBranchStr p0.1)]
    have hne :
        ¬ (input.filter
          (fun p => decide (shortBranchStr p.1 = shortBranchStr p0.1))).isEmpty := by
      have hp0f : p0 ∈ input.filter
          (fun p => decide (shortBranchStr p.1 = shortBranchStr p0.1)) :=
        List.mem_filter.mpr ⟨hp0, by simp⟩
      intro hc
      rw [List.isEmpty_iff] at hc
      rw [hc] at hp0f
      exact absurd hp0f (List.not_mem_nil _)
    rw [if_neg hne]
  refine ⟨res, ?_, hresnd, ?_, ?_⟩
  · have hbb := buildByBranch_eq input []
    simp only [inferBranchVersions, hbb]
    exact hres
  · intro k
    rw [hkeys k]
    simp only [List.map_nil, List.not_mem_nil, false_or]
    constructor
    · rintro ⟨b, l, hbl, v, hv, rfl⟩
      rw [hmem_of b l hbl] at hv
      rcases List.mem_map.mp hv with ⟨p, hp, rfl⟩
      exact ⟨p, List.mem_of_mem_filter hp, rfl⟩
    · rintro ⟨p, hp, rfl⟩
      refine ⟨shortBranchStr p.1,
        (input.filter
          (fun q => decide (shortBranchStr q.1 = shortBranchStr p.1))).map Prod.fst,
        hbucket_mem p.1 (List.mem_map_of_mem Prod.fst hp), p.1, ?_, rfl⟩
      exact List.mem_map_of_mem Prod.fst
        (List.mem_filter.mpr ⟨hp, by simp⟩)
  · intro v hv p q hsplit
    have hbm : branchMembers (input.map Prod.fst) v =
        (input.filter
          (fun q2 => decide (shortBranchStr q2.1 = shortBranchStr v))).map Prod.fst := by
      rw [branchMembers, filter_map_fst]
    rw [hbm] at hsplit
    have hv2 := hvals (shortBranchStr v)
      ((input.filter
        (fun q2 => decide (shortBranchStr q2.1 = shortBranchStr v))).map Prod.fst)
      (hbucket_mem v hv) p v q hsplit
    rw [hv2, hEeq, hbm]

theorem firstExpIn_append (E : SemVer → Option SemVer) (p r : List SemVer) :
    firstExpIn E (p ++ r) =
      match firstExpIn E p with
      | some ju => some ju
      | none => (firstExpIn E r).map (fun x => (x.1 + p.length, x.2)) := by
  induction p with
  | nil =>
    simp only [List.nil_append, firstExpIn, List.length_nil]
    cases firstExpIn E r with
    | none => rfl
    | some x => simp
  | cons x p ih =>
    simp only [List.cons_append, firstExpIn]
    by_cases hx : (E x).isSome
    · rw [if_pos hx, if_pos hx]
    · rw [if_neg hx, if_neg hx, List.append_eq, ih]
      cases hp : firstExpIn E p with
      | some ju => rfl
      | none =>
        cases hr : firstExpIn E r with
        | none => rfl
        | some y =>
          simp only [Option.map_some', Option.map_none', List.length_cons,
            Nat.add_assoc]
    
theorem lastExpIn_eq_none_iff (E : SemVer → Option SemVer) (l : List SemVer) :
    lastExpIn E l = none ↔ ∀ u ∈ l, E u = none := by
  constructor
  · intro h u hu
    induction l with
    | nil => simp at hu
    | cons x l ih =>
      rw [lastExpIn_cons] at h
      cases hl : lastExpIn E l with
      | some y => rw [hl] at h; exact Option.noConfusion h
      | none =>
        rw [hl] at h
        rcases List.mem_cons.mp hu with rfl | hu2
        · by_cases hx : (E u).isSome
          · rw [if_pos hx] at h; exact Option.noConfusion h
          · exact Option.not_isSome_iff_eq_none.mp hx
        · exact ih (by rw [hl]) hu2
  · exact lastExpIn_none

theorem branchResult_explicit (E : SemVer → Option SemVer) (s p : List SemVer)
    (v w : SemVer) (hEv : E v = some w) :
    branchResult E s p v = ⟨some w, some (svToStr v), Mode.explicit⟩ := by
  rw [branchResult, hEv]

theorem branchResult_forwardFill (E : SemVer → Option SemVer) (s p q : List SemVer)
    (v a w : SemVer) (hs : s = p ++ v :: q) (hEv : E v = none)
    (hlast : lastExpIn E p = some a) (ha : E a = some w) :
    branchResult E s p v = ⟨some w, some (svToStr a), Mode.forwardFill⟩ := by
  obtain ⟨hamem, hasome⟩ := lastExpIn_mem hlast
  have hfpne : firstExpIn E p ≠ none := by
    intro hc
    rw [firstExpIn_none_iff] at hc
    rw [hc a hamem] at ha
    exact Option.noConfusion ha
  obtain ⟨ju, hfp⟩ := Option.ne_none_iff_exists'.mp hfpne
  obtain ⟨j, u⟩ := ju
  obtain ⟨pre, post, hpeq, hlen, _, _⟩ := firstExpIn_some_split hfp
  have hjlt : j < p.length := by
    rw [hpeq, List.length_append, List.length_cons, ← hlen]
    omega
  have hfs : firstExpIn E s = some (j, u) := by
    rw [hs, firstExpIn_append, hfp]
  rw [branchResult, hEv, hfs]
  dsimp only
  rw [if_neg (by omega), curAfter_spec, hlast]
  dsimp only
  rw [ha]

theorem branchResult_backwardFill (E : SemVer → Option SemVer) (s p q : List SemVer)
    (v a w : SemVer) (j : Nat) (hs : s = p ++ v :: q) (hEv : E v = none)
    (hfs : firstExpIn E s = some (j, a)) (hj : p.length < j)
    (ha : E a = some w) :
    branchResult E s p v = ⟨some w, some (svToStr a), Mode.backwardFill⟩ := by
  rw [branchResult, hEv, hfs]
  dsimp only
  rw [if_pos hj, ha]

theorem firstExpIn_prefix_none {E : SemVer → Option SemVer} {s p q : List SemVer}
    {v : SemVer} {j : Nat} {a : SemVer} (hs : s = p ++ v :: q)
    (hfs : firstExpIn E s = some (j, a)) (hj : p.length < j) : E v = none := by
  obtain ⟨pre, post, hpeq, hlen, hall, _⟩ := firstExpIn_some_split hfs
  apply hall
  have hpre : pre = s.take j := by
    rw [hpeq, ← hlen, List.take_left]
  rw [hpre, hs, List.take_append_eq_append_take]
  obtain ⟨m, hm⟩ : ∃ m, j - p.length = m + 1 := ⟨j - p.length - 1, by omega⟩
  rw [hm, List.take_succ_cons]
  exact List.mem_append_right _ (List.mem_cons_self v _)

theorem branchMembers_congr (svs : List SemVer) {a v : SemVer}
    (h : shortBranchStr a = shortBranchStr v) :
    branchMembers svs a = branchMembers svs v := by
  simp [branchMembers, h]

theorem mem_of_mem_branchMembers {svs : List SemVer} {u v : SemVer}
    (h : u ∈ branchMembers svs v) :
    u ∈ svs ∧ shortBranchStr u = shortBranchStr v := by
  rw [branchMembers, List.mem_filter] at h
  exact ⟨h.1, of_decide_eq_true h.2⟩

theorem firstExp_mem_prefix {E : SemVer → Option SemVer} {s p q : List SemVer}
    {v u : SemVer} {j : Nat} (hs : s = p ++ v :: q) (hEv : E v = none)
    (hfs : firstExpIn E s = some (j, u)) (hj : ¬ p.length < j) : u ∈ p := by
  obtain ⟨pre, post, hpeq, hlen, hall, husome⟩ := firstExpIn_some_split hfs
  have heq : pre ++ u :: post = p ++ v :: q := by rw [← hpeq, ← hs]
  rcases List.append_eq_append_iff.mp heq with ⟨a', ha1, ha2⟩ | ⟨c', hc1, hc2⟩
  · cases a' with
    | nil =>
      simp only [List.nil_append] at ha2
      injection ha2 with h1 h2
      rw [h1, hEv] at husome
      exact absurd husome (by simp)
    | cons u' a'' =>
      simp only [List.cons_append] at ha2
      injection ha2 with h1 h2
      rw [ha1, h1]
      exact List.mem_append_right _ (List.mem_cons_self _ _)
  · cases c' with
    | nil =>
      simp only [List.nil_append] at hc2
      injection hc2 with h1 h2
      rw [← h1, hEv] at husome
      exact absurd husome (by simp)
    | cons v' c'' =>
      have hlc : pre.length = p.length + (c''.length + 1) := by
        rw [hc1, List.length_append, List.length_cons]
      omega

theorem branchResult_invariant (E : SemVer → Option SemVer) (s p q : List SemVer)
    (v : SemVer) (hs : s = p ++ v :: q) :
    ((branchResult E s p v).version = none ↔
      (branchResult E s p v).mode = Mode.unknown) ∧
    ((branchResult E s p v).anchor = none ↔
      (branchResult E s p v).mode = Mode.unknown) ∧
    ((branchResult E s p v).mode = Mode.explicit →
      (branchResult E s p v).anchor = some (svToStr v) ∧
      (branchResult E s p v).version = E v) ∧
    ((branchResult E s p v).mode = Mode.forwardFill ∨
        (branchResult E s p v).mode = Mode.backwardFill →
      ∃ u ∈ s, (E u).isSome = true ∧
        (branchResult E s p v).anchor = some (svToStr u) ∧
        (branchResult E s p v).version = E u) ∧
    ((branchResult E s p v).mode = Mode.unknown ↔ ∀ u ∈ s, E u = none) := by
  have hvmem : v ∈ s := by
    rw [hs]
    exact List.mem_append_right _ (List.mem_cons_self _ _)
  cases hEv : E v with
  | some w =>
    rw [branchResult_explicit E s p v w hEv]
    refine ⟨by simp, by simp, fun _ => ⟨rfl, rfl⟩, ?_, ?_⟩
    · intro h
      rcases h with h | h <;> exact Mode.noConfusion h
    · constructor
      · intro h
        exact Mode.noConfusion h
      · intro h
        have hvn := h v hvmem
        rw [hEv] at hvn
        exact Option.noConfusion hvn
  | none =>
    cases hfs : firstExpIn E s with
    | none =>
      have hr : branchResult E s p v = ⟨none, none, Mode.unknown⟩ := by
        rw [branchResult, hEv, hfs]
      rw [hr]
      refine ⟨by simp, by simp, ?_, ?_, ?_⟩
      · intro h
        exact Mode.noConfusion h
      · intro h
        rcases h with h | h <;> exact Mode.noConfusion h
      · exact ⟨fun _ => (firstExpIn_none_iff E s).mp hfs, fun _ => rfl⟩
    | some ju =>
      obtain ⟨j, u⟩ := ju
      obtain ⟨pre, post, hpeq, hlen, hall, husome⟩ := firstExpIn_some_split hfs
      have humem : u ∈ s := by
        rw [hpeq]
        exact List.mem_append_right _ (List.mem_cons_self _ _)
      obtain ⟨w, hw⟩ := Option.isSome_iff_exists.mp husome
      by_cases hj : p.length < j
      · rw [branchResult_backwardFill E s p q v u w j hs hEv hfs hj hw]
        refine ⟨by simp, by simp, ?_, ?_, ?_⟩
        · intro h
          exact Mode.noConfusion h
        · intro _
          exact ⟨u, humem, husome, rfl, hw.symm⟩
        · constructor
          · intro h
            exact Mode.noConfusion h
          · intro h
            have hun := h u humem
            rw [hw] at hun
            exact Option.noConfusion hun
      · cases hlastp : lastExpIn E p with
        | some a =>
          obtain ⟨hamem, hasome⟩ := lastExpIn_mem hlastp
          obtain ⟨wa, hwa⟩ := Option.isSome_iff_exists.mp hasome
          rw [branchResult_forwardFill E s p q v a wa hs hEv hlastp hwa]
          have hams : a ∈ s := by
            rw [hs]
            exact List.mem_append_left _ hamem
          refine ⟨by simp, by simp, ?_, ?_, ?_⟩
          · intro h
            exact Mode.noConfusion h
          · intro _
            exact ⟨a, hams, hasome, rfl, hwa.symm⟩
          · constructor
            · intro h
              exact Mode.noConfusion h
            · intro h
              have han := h a hams
              rw [hwa] at han
              exact Option.noConfusion han
        | none =>
          exfalso
          have hup : u ∈ p := firstExp_mem_prefix hs hEv hfs hj
          have hun := (lastExpIn_eq_none_iff E p).mp hlastp u hup
          rw [hun] at husome
          simp at husome

/-- C1: in `infer_branch_versions`, a release `v` with no explicit LLVM
mention that is preceded, in ascending-patch order within its
`(major, minor)` branch, by at least one explicitly-mentioning release is
assigned the triple (most recent preceding explicit version, that preceding
release as anchor, `forward_fill`). -/
theorem c1_forward_fill (input : List (SemVer × Option SemVer))
    (v a w : SemVer) (p q : List SemVer)
    (hnd : (input.map (fun r => svToStr r.1)).Nodup)
    (hv : v ∈ input.map Prod.fst)
    (hsplit : List.insertionSort patchLe (branchMembers (input.map Prod.fst) v) =
      p ++ v :: q)
    (hnoexp : (alGet input v).bind id = none)
    (hlast : lastExpIn (fun u => (alGet input u).bind id) p = some a)
    (ha : (alGet input a).bind id = some w) :
    ∃ res,
      inferBranchVersions (input.map fun r => (svToStr r.1, r.2)) = some res ∧
      alGet res (svToStr v) =
        some ⟨some w, some (svToStr a), Mode.forwardFill⟩ := by
  obtain ⟨res, hres, _, _, hvals⟩ := inferBranchVersions_spec input hnd
  refine ⟨res, hres, ?_⟩
  rw [hvals v hv p q hsplit,
    branchResult_forwardFill _ _ p q v a w hsplit hnoexp hlast ha]

theorem c1_forward_fill_witness :
    ∃ res,
      inferBranchVersions
        (([(⟨1, 0, 0⟩, some ⟨16, 0, 0⟩), (⟨1, 0, 1⟩, none), (⟨1, 0, 2⟩, none)] :
          List (SemVer × Option SemVer)).map fun r => (svToStr r.1, r.2)) =
        some res ∧
      alGet res (svToStr ⟨1, 0, 2⟩) =
        some ⟨some ⟨16, 0, 0⟩, some (svToStr (⟨1, 0, 0⟩ : SemVer)),
          Mode.forwardFill⟩ :=
  c1_forward_fill
    [(⟨1, 0, 0⟩, some ⟨16, 0, 0⟩), (⟨1, 0, 1⟩, none), (⟨1, 0, 2⟩, none)]
    ⟨1, 0, 2⟩ ⟨1, 0, 0⟩ ⟨16, 0, 0⟩ [⟨1, 0, 0⟩, ⟨1, 0, 1⟩] []
    (by decide) (by decide) (by decide) (by decide) (by decide) (by decide)

/-- C2: in `infer_branch_versions`, when the first explicitly-mentioning
release of a branch sits at ascending-patch index `j > 0`, every release at
an earlier index is assigned (that first explicit version, that first
explicit release as anchor, `backward_fill`), and the first explicit release
itself gets mode `explicit`. -/
theorem c2_backward_fill (input : List (SemVer × Option SemVer))
    (v a w : SemVer) (p q : List SemVer) (j : Nat)
    (hnd : (input.map (fun r => svToStr r.1)).Nodup)
    (hv : v ∈ input.map Prod.fst)
    (hsplit : List.insertionSort patchLe (branchMembers (input.map Prod.fst) v) =
      p ++ v :: q)
    (hfs : firstExpIn (fun u => (alGet input u).bind id)
      (List.insertionSort patchLe (branchMembers (input.map Prod.fst) v)) =
        some (j, a))
    (hj : p.length < j)
    (ha : (alGet input a).bind id = some w) :
    ∃ res,
      inferBranchVersions (input.map fun r => (svToStr r.1, r.2)) = some res ∧
      alGet res (svToStr v) =
        some ⟨some w, some (svToStr a), Mode.backwardFill⟩ ∧
      alGet res (svToStr a) =
        some ⟨some w, some (svToStr a), Mode.explicit⟩ := by
  obtain ⟨res, hres, _, _, hvals⟩ := inferBranchVersions_spec input hnd
  have hEv : (alGet input v).bind id = none :=
    firstExpIn_prefix_none hsplit hfs hj
  refine ⟨res, hres, ?_, ?_⟩
  · rw [hvals v hv p q hsplit,
      branchResult_backwardFill _ _ p q v a w j hsplit hEv hfs hj ha]
  · obtain ⟨pre, post, hpeq, hlen, hall, hasome⟩ := firstExpIn_some_split hfs
    have hamemS :
        a ∈ List.insertionSort patchLe (branchMembers (input.map Prod.fst) v) := by
      rw [hpeq]
      exact List.mem_append_right _ (List.mem_cons_self _ _)
    have hamemB : a ∈ branchMembers (input.map Prod.fst) v :=
      (List.perm_insertionSort patchLe _).mem_iff.mp hamemS
    obtain ⟨hamemI, hbr⟩ := mem_of_mem_branchMembers hamemB
    have hbmc : branchMembers (input.map Prod.fst) a =
        branchMembers (input.map Prod.fst) v :=
      branchMembers_congr _ hbr
    have hsplit_a :
        List.insertionSort patchLe (branchMembers (input.map Prod.fst) a) =
          pre ++ a :: post := by
      rw [hbmc]
      exact hpeq
    rw [hvals a hamemI pre post hsplit_a,
      branchResult_explicit _ _ pre a w ha]

theorem c2_backward_fill_witness :
    ∃ res,
      inferBranchVersions
        (([(⟨1, 0, 0⟩, none), (⟨1, 0, 1⟩, some ⟨16, 0, 0⟩)] :
          List (SemVer × Option SemVer)).map fun r => (svToStr r.1, r.2)) =
        some res ∧
      alGet res (svToStr ⟨1, 0, 0⟩) =
        some ⟨some ⟨16, 0, 0⟩, some (svToStr (⟨1, 0, 1⟩ : SemVer)),
          Mode.backwardFill⟩ ∧
      alGet res (svToStr (⟨1, 0, 1⟩ : SemVer)) =
        some ⟨some ⟨16, 0, 0⟩, some (svToStr (⟨1, 0, 1⟩ : SemVer)),
          Mode.explicit⟩ :=
  c2_backward_fill
    [(⟨1, 0, 0⟩, none), (⟨1, 0, 1⟩, some ⟨16, 0, 0⟩)]
    ⟨1, 0, 0⟩ ⟨1, 0, 1⟩ ⟨16, 0, 0⟩ [] [⟨1, 0, 1⟩] 1
    (by decide) (by decide) (by decide) (by decide) (by decide) (by decide)

/-- C4: invariant of `infer_branch_versions`'s output: every input release is
assigned exactly one triple (the output keys are exactly the input keys,
without duplicates); the version and the anchor are absent exactly when the
mode is `unknown`; an `explicit` triple anchors to the release itself; a
`forward_fill` or `backward_fill` triple anchors to a same-branch release
with an explicit mention; and the mode is `unknown` exactly when no release
of the branch carries an explicit mention. -/
theorem c4_output_invariant (input : List (SemVer × Option SemVer))
    (hnd : (input.map (fun r => svToStr r.1)).Nodup) :
    ∃ res,
      inferBranchVersions (input.map fun r => (svToStr r.1, r.2)) = some res ∧
      (res.map Prod.fst).Nodup ∧
      (∀ k, k ∈ res.map Prod.fst ↔ ∃ r ∈ input, k = svToStr r.1) ∧
      (∀ v ∈ input.map Prod.fst, ∃ t,
        alGet res (svToStr v) = some t ∧
        (t.version = none ↔ t.mode = Mode.unknown) ∧
        (t.anchor = none ↔ t.mode = Mode.unknown) ∧
        (t.mode = Mode.explicit → t.anchor = some (svToStr v)) ∧
        ((t.mode = Mode.forwardFill ∨ t.mode = Mode.backwardFill) →
          ∃ u ∈ branchMembers (input.map Prod.fst) v,
            ((alGet input u).bind id).isSome = true ∧
            t.anchor = some (svToStr u)) ∧
        (t.mode = Mode.unknown ↔
          ∀ u ∈ branchMembers (input.map Prod.fst) v,
            (alGet input u).bind id = none)) := by
  obtain ⟨res, hres, hresnd, hkeys, hvals⟩ := inferBranchVersions_spec input hnd
  refine ⟨res, hres, hresnd, hkeys, ?_⟩
  intro v hv
  have hvb : v ∈ branchMembers (input.map Prod.fst) v :=
    List.mem_filter.mpr ⟨hv, by simp⟩
  have hvs :
      v ∈ List.insertionSort patchLe (branchMembers (input.map Prod.fst) v) :=
    (List.perm_insertionSort patchLe _).mem_iff.mpr hvb
  obtain ⟨p, q, hsplit⟩ := List.append_of_mem hvs
  obtain ⟨h1, h2, h3, h4, h5⟩ :=
    branchResult_invariant (fun u => (alGet input u).bind id)
      (List.insertionSort patchLe (branchMembers (input.map Prod.fst) v))
      p q v hsplit
  refine ⟨branchResult (fun u => (alGet input u).bind id)
      (List.insertionSort patchLe (branchMembers (input.map Prod.fst) v)) p v,
    hvals v hv p q hsplit, h1, h2, fun hm => (h3 hm).1, ?_, ?_⟩
  · intro hm
    obtain ⟨u, hus, husome, hanch, _⟩ := h4 hm
    exact ⟨u, (List.perm_insertionSort patchLe _).mem_iff.mp hus, husome, hanch⟩
  · constructor
    · intro hm u hub
      exact h5.mp hm u ((List.perm_insertionSort patchLe _).mem_iff.mpr hub)
    · intro hall
      exact h5.mpr fun u hus =>
        hall u ((List.perm_insertionSort patchLe _).mem_iff.mp hus)

theorem c4_output_invariant_witness :
    ∃ res,
      inferBranchVersions
        (([(⟨3, 1, 4⟩, some ⟨17, 0, 6⟩), (⟨3, 1, 5⟩, none), (⟨3, 2, 0⟩, none)] :
          List (SemVer × Option SemVer)).map fun r => (svToStr r.1, r.2)) =
        some res ∧
      (res.map Prod.fst).Nodup ∧
      (∀ k, k ∈ res.map Prod.fst ↔
        ∃ r ∈ ([(⟨3, 1, 4⟩, some ⟨17, 0, 6⟩), (⟨3, 1, 5⟩, none),
          (⟨3, 2, 0⟩, none)] : List (SemVer × Option SemVer)),
            k = svToStr r.1) ∧
      (∀ v ∈ (([(⟨3, 1, 4⟩, some ⟨17, 0, 6⟩), (⟨3, 1, 5⟩, none),
          (⟨3, 2, 0⟩, none)] : List (SemVer × Option SemVer)).map Prod.fst),
        ∃ t,
        alGet res (svToStr v) = some t ∧
        (t.version = none ↔ t.mode = Mode.unknown) ∧
        (t.anchor = none ↔ t.mode = Mode.unknown) ∧
        (t.mode = Mode.explicit → t.anchor = some (svToStr v)) ∧
        ((t.mode = Mode.forwardFill ∨ t.mode = Mode.backwardFill) →
          ∃ u ∈ branchMembers
              (([(⟨3, 1, 4⟩, some ⟨17, 0, 6⟩), (⟨3, 1, 5⟩, none),
                (⟨3, 2, 0⟩, none)] : List (SemVer × Option SemVer)).map
                  Prod.fst) v,
            ((alGet ([(⟨3, 1, 4⟩, some ⟨17, 0, 6⟩), (⟨3, 1, 5⟩, none),
              (⟨3, 2, 0⟩, none)] : List (SemVer × Option SemVer)) u).bind
                id).isSome = true ∧
            t.anchor = some (svToStr u)) ∧
        (t.mode = Mode.unknown ↔
          ∀ u ∈ branchMembers
              (([(⟨3, 1, 4⟩, some ⟨17, 0, 6⟩), (⟨3, 1, 5⟩, none),
                (⟨3, 2, 0⟩, none)] : List (SemVer × Option SemVer)).map
                  Prod.fst) v,
            (alGet ([(⟨3, 1, 4⟩, some ⟨17, 0, 6⟩), (⟨3, 1, 5⟩, none),
              (⟨3, 2, 0⟩, none)] : List (SemVer × Option SemVer)) u).bind
                id = none)) :=
  c4_output_invariant
    [(⟨3, 1, 4⟩, some ⟨17, 0, 6⟩), (⟨3, 1, 5⟩, none), (⟨3, 2, 0⟩, none)]
    (by decide)
